import Mathlib

/-!
Verification of the AWS SigV4 signing core of `rust-genai`
(`src/adapter/adapters/bedrock/aws_auth.rs`) and of the resolver
auth-data type (`src/resolver/auth_data.rs`).

Shallow embedding conventions:
* Rust `u8`/`u32`/`u64` values are `Nat`s, with `% 2^w` applied where the
  Rust code relies on wrapping arithmetic.
* Rust `&[u8]` is `List Nat` (each element `< 256` in practice).
* Rust `String` is Lean `String`; where the Rust code works on the UTF-8
  bytes of a string we convert with an explicit UTF-8 encoder.
* Loops whose termination measure is not structural are given an explicit
  fuel argument; each use calls them with provably sufficient fuel, so the
  embedded function agrees with the Rust loop on every input.
* `std::env` reads and the system clock are passed as explicit arguments.
-/

set_option maxRecDepth 100000

namespace AwsAuth

/-- 2^32, the modulus of Rust `u32` wrapping arithmetic. -/
def m32 : Nat := 4294967296

/-- Rust `u32::rotate_right` on a value `x < 2^32`. -/
def rotr (x n : Nat) : Nat := ((x >>> n) ||| (x <<< (32 - n))) % m32

/-- Wrapping `u32` addition (`u32::wrapping_add`). -/
def add32 (a b : Nat) : Nat := (a + b) % m32

/-- Big-endian bytes of `v`, `n` bytes wide (`u64::to_be_bytes` for `n = 8`,
`u32::to_be_bytes` for `n = 4`). -/
def beBytes (n v : Nat) : List Nat :=
  (List.range n).map (fun i => (v >>> (8 * (n - 1 - i))) % 256)

/-- `u32::from_be_bytes` on four bytes. -/
def wordOfBytes (b0 b1 b2 b3 : Nat) : Nat :=
  b0 * 16777216 + b1 * 65536 + b2 * 256 + b3

/-- The 64 SHA-256 round constants `K` from `sha256` (the source writes them in
hexadecimal; decimal values here, same numbers). -/
def K : List Nat :=
  [1116352408, 1899447441, 3049323471, 3921009573, 961987163, 1508970993,
   2453635748, 2870763221, 3624381080, 310598401, 607225278, 1426881987,
   1925078388, 2162078206, 2614888103, 3248222580, 3835390401, 4022224774,
   264347078, 604807628, 770255983, 1249150122, 1555081692, 1996064986,
   2554220882, 2821834349, 2952996808, 3210313671, 3336571891, 3584528711,
   113926993, 338241895, 666307205, 773529912, 1294757372, 1396182291,
   1695183700, 1986661051, 2177026350, 2456956037, 2730485921, 2820302411,
   3259730800, 3345764771, 3516065817, 3600352804, 4094571909, 275423344,
   430227734, 506948616, 659060556, 883997877, 958139571, 1322822218,
   1537002063, 1747873779, 1955562222, 2024104815, 2227730452, 2361852424,
   2428436474, 2756734187, 3204031479, 3329325298]

/-- The 8 initial hash words `h` from `sha256` (decimal rendering of the source's
hexadecimal constants). -/
def H0 : List Nat :=
  [1779033703, 3144134277, 1013904242, 2773480762,
   1359893119, 2600822924, 528734635, 1541459225]

/-- The zero-padding loop of `sha256`: `while (padded.len() % 64) != 56 { padded.push(0); }`.
Fuel-indexed; fuel `64` always suffices because at most 63 zero bytes are appended. -/
def padZeros : Nat → List Nat → List Nat
  | 0, l => l
  | fuel + 1, l => if l.length % 64 == 56 then l else padZeros fuel (l ++ [0])

/-- The SHA-256 preprocessing of `sha256`: append `0x80`, zero-pad to 56 mod 64,
append the bit length as a 64-bit big-endian integer (`(data.len() as u64) * 8`). -/
def padMsg (data : List Nat) : List Nat :=
  padZeros 64 (data ++ [0x80]) ++ beBytes 8 ((data.length * 8) % (2 ^ 64))

/-- `s0` of the SHA-256 message schedule. -/
def ssig0 (x : Nat) : Nat := (rotr x 7) ^^^ (rotr x 18) ^^^ (x >>> 3)

/-- `s1` of the SHA-256 message schedule. -/
def ssig1 (x : Nat) : Nat := (rotr x 17) ^^^ (rotr x 19) ^^^ (x >>> 10)

/-- One extension step of the schedule: `w[i] = w[i-16] + s0(w[i-15]) + w[i-7] + s1(w[i-2])`
(wrapping), where `i = w.size`. -/
def extendStep (w : Array Nat) : Array Nat :=
  let i := w.size
  w.push (add32 (add32 (w.getD (i - 16) 0) (ssig0 (w.getD (i - 15) 0)))
               (add32 (w.getD (i - 7) 0) (ssig1 (w.getD (i - 2) 0))))

/-- Extend the 16-word schedule by `n` further words (the `for i in 16..64` loop). -/
def extendW : Nat → Array Nat → Array Nat
  | 0, w => w
  | n + 1, w => extendW n (extendStep w)

/-- The sixteen 32-bit big-endian words of a 64-byte chunk. -/
def chunkWords : List Nat → List Nat
  | b0 :: b1 :: b2 :: b3 :: rest => wordOfBytes b0 b1 b2 b3 :: chunkWords rest
  | _ => []

/-- One round of the SHA-256 compression loop over the working variables
`[a, b, c, d, e, f, g, hh]`. -/
def roundStep (k wi : Nat) (vs : List Nat) : List Nat :=
  match vs with
  | [a, b, c, d, e, f, g, hh] =>
    let s1 := (rotr e 6) ^^^ (rotr e 11) ^^^ (rotr e 25)
    let ch := (e &&& f) ^^^ ((e ^^^ (m32 - 1)) &&& g)
    let temp1 := add32 (add32 (add32 (add32 hh s1) ch) k) wi
    let s0 := (rotr a 2) ^^^ (rotr a 13) ^^^ (rotr a 22)
    let maj := (a &&& b) ^^^ (a &&& c) ^^^ (b &&& c)
    let temp2 := add32 s0 maj
    [add32 temp1 temp2, a, b, c, add32 d temp1, e, f, g]
  | other => other

/-- The 64 compression rounds, consuming the round constants and schedule words. -/
def rounds : List Nat → List Nat → List Nat → List Nat
  | k :: ks, wi :: ws, vs => rounds ks ws (roundStep k wi vs)
  | _, _, vs => vs

/-- Compress one 64-byte chunk into the running 8-word state. -/
def compress (hs chunk : List Nat) : List Nat :=
  let w := (extendW 48 (Array.mk (chunkWords chunk))).toList
  let vs := rounds K w hs
  List.zipWith add32 hs vs

/-- Process `n` 64-byte chunks of `l` (the `for chunk in padded.chunks(64)` loop);
called with `n` = number of chunks, which the padding makes exact. -/
def processChunks : Nat → List Nat → List Nat → List Nat
  | 0, hs, _ => hs
  | n + 1, hs, l => processChunks n (compress hs (l.take 64)) (l.drop 64)

/-- The SHA-256 hash from `sha256`: 32 output bytes. -/
def sha256 (data : List Nat) : List Nat :=
  let padded := padMsg data
  let hs := processChunks (padded.length / 64) H0 padded
  hs.flatMap (fun w => beBytes 4 w)

/-- Lowercase hex digit of `n < 16` (as a byte value), per Rust `{:02x}`. -/
def hexLower (n : Nat) : Nat := if n < 10 then 48 + n else 87 + n

/-- Lowercase-hex rendering of a byte list (the `format!("{:02x}", b)` fold). -/
def hexStr (l : List Nat) : String :=
  String.mk (l.flatMap
    (fun b => [Char.ofNat (hexLower (b / 16)), Char.ofNat (hexLower (b % 16))]))

/-- `sha256_hex`: lowercase-hex string of the digest. -/
def sha256_hex (data : List Nat) : String := hexStr (sha256 data)

/-- `hmac_sha256`: HMAC-SHA256 with 64-byte block size, translated from the source. -/
def hmac_sha256 (key data : List Nat) : List Nat :=
  let key := if key.length > 64 then sha256 key else key
  let padded_key := key ++ List.replicate (64 - key.length) 0
  let i_key_pad := (List.range 64).map (fun i => 0x36 ^^^ padded_key.getD i 0)
  let o_key_pad := (List.range 64).map (fun i => 0x5c ^^^ padded_key.getD i 0)
  let inner_hash := sha256 (i_key_pad ++ data)
  sha256 (o_key_pad ++ inner_hash)

/-- `hmac_sha256_hex`. -/
def hmac_sha256_hex (key data : List Nat) : String := hexStr (hmac_sha256 key data)

/-- UTF-8 bytes of one scalar value (Rust strings are UTF-8; `str::bytes`). -/
def utf8Char (c : Nat) : List Nat :=
  if c < 0x80 then [c]
  else if c < 0x800 then [0xC0 ||| (c >>> 6), 0x80 ||| (c &&& 0x3F)]
  else if c < 0x10000 then
    [0xE0 ||| (c >>> 12), 0x80 ||| ((c >>> 6) &&& 0x3F), 0x80 ||| (c &&& 0x3F)]
  else
    [0xF0 ||| (c >>> 18), 0x80 ||| ((c >>> 12) &&& 0x3F), 0x80 ||| ((c >>> 6) &&& 0x3F),
     0x80 ||| (c &&& 0x3F)]

/-- The UTF-8 bytes of a string (`str::as_bytes`). -/
def strBytes (s : String) : List Nat := s.data.flatMap (fun c => utf8Char c.toNat)

/-- The padded 64-byte HMAC key block, written following the spec's words:
if the key is longer than the 64-byte block size replace it with its hash,
then right-pad with zero bytes to exactly 64 bytes. -/
def hmacKeyBlock (key : List Nat) : List Nat :=
  let key := if key.length > 64 then sha256 key else key
  key ++ List.replicate (64 - key.length) 0

/-- The unreserved bytes of `uri_encode`: `A-Z a-z 0-9 - _ . ~`. -/
def isUnreserved (b : Nat) : Bool :=
  (65 ≤ b && b ≤ 90) || (97 ≤ b && b ≤ 122) || (48 ≤ b && b ≤ 57) ||
    b == 45 || b == 95 || b == 46 || b == 126

/-- Uppercase hex digit byte, per Rust `{:02X}`. -/
def hexUpperDigit (n : Nat) : Nat := if n < 10 then 48 + n else 55 + n

/-- `uri_encode` from the source, on the UTF-8 bytes of the input string
(the Rust code iterates `s.bytes()`): unreserved bytes pass through, `/` passes
through only when `encode_slash` is false, every other byte becomes `%XX`. -/
def uri_encode (encode_slash : Bool) (s : List Nat) : List Nat :=
  s.flatMap (fun b =>
    if isUnreserved b then [b]
    else if b == 47 && !encode_slash then [b]
    else [37, hexUpperDigit (b / 16), hexUpperDigit (b % 16)])

/-- Rust `str::split(sep)` for a single-byte (ASCII) separator, on the UTF-8 bytes:
the pieces between separator occurrences; the empty input yields one empty piece.
(In UTF-8 an ASCII byte occurs only as that ASCII character, so byte-level splitting
agrees with Rust's `char`-level splitting.) -/
def splitAll (sep : Nat) : List Nat → List (List Nat)
  | [] => [[]]
  | b :: rest =>
    if b == sep then [] :: splitAll sep rest
    else
      match splitAll sep rest with
      | p :: ps => (b :: p) :: ps
      | [] => [[b]]

/-- Rust `str::splitn(2, sep)` for an ASCII separator: the part before the first
separator and, when one occurs, everything after it. -/
def splitFirst (sep : Nat) : List Nat → List Nat × Option (List Nat)
  | [] => ([], none)
  | b :: rest =>
    if b == sep then ([], some rest)
    else
      let p := splitFirst sep rest
      (b :: p.1, p.2)

/-- One query pair as built in `create_canonical_request`: split the `&`-piece at the
first `=` (`parts.next().unwrap_or("")` makes a missing value the empty string) and
percent-encode key and value with `encode_slash = true`. -/
def encodePair (p : List Nat) : List Nat × List Nat :=
  (uri_encode true (splitFirst 61 p).1, uri_encode true ((splitFirst 61 p).2.getD []))

/-- Byte-lexicographic strict order: Rust `Ord` on `String` (which compares the
UTF-8 bytes lexicographically). -/
def bytesLt : List Nat → List Nat → Bool
  | _, [] => false
  | [], _ :: _ => true
  | x :: xs, y :: ys => if x < y then true else if y < x then false else bytesLt xs ys

/-- Rust `Ord` on the tuple `(String, String)`: lexicographic, key then value;
this is the order `params.sort()` sorts by. -/
def pairLe (p q : List Nat × List Nat) : Bool :=
  bytesLt p.1 q.1 || (p.1 == q.1 && (bytesLt p.2 q.2 || p.2 == q.2))

/-- `pairLe` as a relation, for use with `List.insertionSort`. -/
def PairLeR (p q : List Nat × List Nat) : Prop := pairLe p q = true

instance : DecidableRel PairLeR :=
  fun p q => inferInstanceAs (Decidable (pairLe p q = true))

/-- The sorted, encoded query pairs. `Vec::sort` returns an ascending reordering
for the total order `pairLe`; sortedness plus being a permutation determines that
list uniquely (`pairLe` is antisymmetric), and `List.insertionSort PairLeR`
produces exactly it. -/
def canonicalPairs (q : List Nat) : List (List Nat × List Nat) :=
  List.insertionSort PairLeR ((splitAll 38 q).map encodePair)

/-- The canonical query string of `create_canonical_request`: split the raw query
on `&`, build encoded pairs, sort, rejoin as `key=value` joined with `&`. -/
def canonicalQuery (q : List Nat) : List Nat :=
  List.intercalate [38] ((canonicalPairs q).map (fun p => p.1 ++ [61] ++ p.2))

/-- Both halves of a raw query pair consist solely of unreserved bytes. -/
def pairUnreserved (p : List Nat) : Bool :=
  (splitFirst 61 p).1.all isUnreserved && ((splitFirst 61 p).2.getD []).all isUnreserved

/-- `is_leap_year`. Every reachable call has `year ≥ 1970`, so `Nat` arithmetic
models the `i64` of the source exactly. -/
def is_leap_year (year : Nat) : Bool :=
  (year % 4 == 0 && year % 100 != 0) || year % 400 == 0

/-- Length of a year, as used by the year-walk in `days_to_ymd`. -/
def daysInYear (year : Nat) : Nat := if is_leap_year year then 366 else 365

/-- The leap-aware days-per-month table of `days_to_ymd`. -/
def daysInMonths (leap : Bool) : List Nat :=
  if leap then [31, 29, 31, 30, 31, 30, 31, 31, 30, 31, 30, 31]
  else [31, 28, 31, 30, 31, 30, 31, 31, 30, 31, 30, 31]

/-- The year-finding loop of `days_to_ymd`, fuel-indexed: each iteration subtracts
at least 365 from `remaining`, so fuel `remaining + 1` always reaches the exit. -/
def yearLoop : Nat → Nat → Nat → Nat × Nat
  | 0, year, remaining => (year, remaining)
  | fuel + 1, year, remaining =>
    if remaining < daysInYear year then (year, remaining)
    else yearLoop fuel (year + 1) (remaining - daysInYear year)

/-- The month-finding loop of `days_to_ymd` over the days-per-month table.
When the loop never breaks the month index ends up one past the table, exactly as
in the source. -/
def monthLoop : List Nat → Nat → Nat → Nat × Nat
  | [], month, remaining => (month, remaining)
  | d :: ds, month, remaining =>
    if remaining < d then (month, remaining)
    else monthLoop ds (month + 1) (remaining - d)

/-- `days_to_ymd`. -/
def days_to_ymd (days : Nat) : Nat × Nat × Nat :=
  let yr := yearLoop (days + 1) 1970 days
  let mr := monthLoop (daysInMonths (is_leap_year yr.1)) 1 yr.2
  (yr.1, mr.1, mr.2 + 1)

/-- Decimal digits of `n`, fuel-indexed (`n + 1` is ample fuel since the value
shrinks by a factor of ten per step); models Rust's decimal rendering. -/
def natDigitsAux : Nat → Nat → List Char
  | 0, _ => []
  | fuel + 1, n =>
    if n < 10 then [Char.ofNat (48 + n)]
    else natDigitsAux fuel (n / 10) ++ [Char.ofNat (48 + n % 10)]

/-- Rust `format!("{:0w}", n)`: decimal digits left-padded with zeros to width `w`
(wider numbers keep all their digits). -/
def padNum (w n : Nat) : String :=
  String.mk (List.replicate (w - (natDigitsAux (n + 1) n).length) '0' ++ natDigitsAux (n + 1) n)

/-- The `"{:04}{:02}{:02}T{:02}{:02}{:02}Z"` rendering used by `format_timestamp`. -/
def renderTS (year month day hours minutes seconds : Nat) : String :=
  padNum 4 year ++ padNum 2 month ++ padNum 2 day ++ "T" ++
    padNum 2 hours ++ padNum 2 minutes ++ padNum 2 seconds ++ "Z"

/-- `format_timestamp`. -/
def format_timestamp (unix_secs : Nat) : String :=
  let days := unix_secs / 86400
  let remaining_secs := unix_secs % 86400
  let ymd := days_to_ymd days
  renderTS ymd.1 ymd.2.1 ymd.2.2 (remaining_secs / 3600) (remaining_secs % 3600 / 60)
    (remaining_secs % 3600 % 60)

/-- Total days in the years `[a, b)` (reference quantity for the year walk). -/
def yearSpan (a b : Nat) : Nat :=
  ((List.range (b - a)).map (fun i => daysInYear (a + i))).sum

/-- Reference day ordinal of a calendar date, written following the spec's
proleptic-Gregorian description: whole years since 1970, plus the month-table
prefix, plus the day of month (1-based). -/
def daysFromCivil (y m d : Nat) : Nat :=
  yearSpan 1970 y + ((daysInMonths (is_leap_year y)).take (m - 1)).sum + (d - 1)

/-- A valid proleptic-Gregorian date not before 1970. -/
def validDate (y m d : Nat) : Prop :=
  1970 ≤ y ∧ 1 ≤ m ∧ m ≤ 12 ∧ 1 ≤ d ∧ d ≤ (daysInMonths (is_leap_year y)).getD (m - 1) 0

instance (y m d : Nat) : Decidable (validDate y m d) := by
  unfold validDate
  infer_instance

/-- The crate error type (`crate::Error`), restricted to the variant this module
constructs. -/
inductive GError where
  | Internal : String → GError
deriving DecidableEq

/-- `ParsedUrl`. -/
structure ParsedUrl where
  host : String
  path : String
  query : Option String
deriving DecidableEq

/-- `url.strip_prefix("https://").or_else(|| url.strip_prefix("http://")).unwrap_or(url)`.
Both patterns are ASCII, so char-level matching equals Rust's byte-level matching. -/
def dropScheme (u : List Char) : List Char :=
  if u.take 8 = "https://".data then u.drop 8
  else if u.take 7 = "http://".data then u.drop 7
  else u

/-- Split at the first occurrence of `c`, dropping the separator — the `?` split
`(&url[..idx], Some(url[idx + 1..]))` of `parse_url`. -/
def breakAtDrop (c : Char) : List Char → List Char × Option (List Char)
  | [] => ([], none)
  | x :: xs =>
    if x = c then ([], some xs)
    else
      let p := breakAtDrop c xs
      (x :: p.1, p.2)

/-- Split at the first occurrence of `c`, keeping the separator in the tail — the
`/` split `(&hp[..idx], hp[idx..])` of `parse_url`. -/
def breakAtKeep (c : Char) : List Char → List Char × Option (List Char)
  | [] => ([], none)
  | x :: xs =>
    if x = c then ([], some (x :: xs))
    else
      let p := breakAtKeep c xs
      (x :: p.1, p.2)

/-- The body of `parse_url` (a total function; the source wraps it in `Ok`). -/
def parseUrl (url : String) : ParsedUrl :=
  let u := dropScheme url.data
  let qsplit := breakAtDrop '?' u
  let hsplit := breakAtKeep '/' qsplit.1
  match hsplit.2 with
  | some rest => ⟨String.mk hsplit.1, String.mk rest, qsplit.2.map String.mk⟩
  | none => ⟨String.mk hsplit.1, "/", qsplit.2.map String.mk⟩

/-- `parse_url`: returns `Result<ParsedUrl>` exactly as the source does — always `Ok`. -/
def parse_url (url : String) : Except GError ParsedUrl := Except.ok (parseUrl url)

/-- ASCII lowercasing of one character. This models Rust `str::to_lowercase` only
on ASCII strings (there the Unicode full case mapping agrees with it exactly);
non-ASCII cased letters are left unchanged, unlike in Rust. Every theorem below
therefore invokes `toLowerStr` either at concrete ASCII inputs or under an
explicit all-ASCII hypothesis (`asciiLowerKey`), where the model is exact. -/
def lowerChar (c : Char) : Char :=
  if 65 ≤ c.toNat ∧ c.toNat ≤ 90 then Char.ofNat (c.toNat + 32) else c

/-- `str::to_lowercase`, within the ASCII scope described at `lowerChar`. -/
def toLowerStr (s : String) : String := String.mk (s.data.map lowerChar)

/-- The string is ASCII and contains no uppercase letter — precisely the strings
that Rust's `str::to_lowercase` (full Unicode case mapping) leaves unchanged
within ASCII, and on which `toLowerStr` agrees with it. -/
def asciiLowerKey (s : String) : Bool :=
  s.data.all (fun c => c.toNat < 128 && !(65 ≤ c.toNat && c.toNat ≤ 90))

/-- ASCII whitespace, for `str::trim` (header values here are ASCII). -/
def isWsChar (c : Char) : Bool := c = ' ' || c = '\t' || c = '\n' || c = '\r'

/-- `str::trim`. -/
def trimStr (s : String) : String :=
  String.mk (((s.data.dropWhile isWsChar).reverse.dropWhile isWsChar).reverse)

/-- Rust `Ord` on `String`: lexicographic on the UTF-8 bytes; UTF-8 is
order-preserving, so this equals lexicographic comparison of the scalar values. -/
def strLt (a b : String) : Bool :=
  bytesLt (a.data.map Char.toNat) (b.data.map Char.toNat)

/-- `BTreeMap<String, String>` as a key-sorted association list. -/
abbrev Hmap := List (String × String)

/-- `BTreeMap::insert`: replaces the value at an existing key, otherwise inserts
at the ascending key position. -/
def mapInsert (k v : String) : Hmap → Hmap
  | [] => [(k, v)]
  | (k', v') :: rest =>
    if strLt k k' then (k, v) :: (k', v') :: rest
    else if k = k' then (k, v) :: rest
    else (k', v') :: mapInsert k v rest

/-- `BTreeMap::get`. -/
def lookupH (k : String) : Hmap → Option String
  | [] => none
  | (k', v) :: rest => if k = k' then some v else lookupH k rest

/-- The `BTreeMap` representation invariant: strictly ascending keys (which is
what `iter()` order and key uniqueness rest on). -/
def SortedKeys (m : Hmap) : Prop :=
  List.Pairwise (fun a b => strLt a.1 b.1 = true) m

instance (m : Hmap) : Decidable (SortedKeys m) := by
  unfold SortedKeys
  infer_instance

/-- `AwsCredentials`. -/
structure AwsCredentials where
  access_key_id : String
  secret_access_key : String
  session_token : Option String
  region : String
deriving DecidableEq

/-- The canonical headers block of `create_canonical_request`: one
`"<lowercased-name>:<trimmed-value>\n"` line per map entry, in map iteration
order. -/
def canonicalHeadersBlock (headers : Hmap) : String :=
  String.join (headers.map (fun kv => toLowerStr kv.1 ++ ":" ++ trimStr kv.2 ++ "\n"))

/-- The signed-headers list of `create_canonical_request`: lowercased names in map
order, semicolon-joined. -/
def signedHeadersStr (headers : Hmap) : String :=
  String.intercalate ";" (headers.map (fun kv => toLowerStr kv.1))

/-- `create_canonical_request`. `uri_encode` and the canonical query produce only
ASCII bytes, which `Char.ofNat` turns back into the Rust `String` result. -/
def create_canonical_request (method : String) (parsed_url : ParsedUrl)
    (headers : Hmap) (payload_hash : String) : String :=
  let canonical_uri :=
    if parsed_url.path = "" then "/"
    else String.mk ((uri_encode false (strBytes parsed_url.path)).map Char.ofNat)
  let canonical_query :=
    match parsed_url.query with
    | some q => String.mk ((canonicalQuery (strBytes q)).map Char.ofNat)
    | none => ""
  method ++ "\n" ++ canonical_uri ++ "\n" ++ canonical_query ++ "\n" ++
    canonicalHeadersBlock headers ++ "\n" ++ signedHeadersStr headers ++ "\n" ++ payload_hash

/-- `derive_signing_key`. -/
def derive_signing_key (creds : AwsCredentials) (service date : String) : List Nat :=
  let k_secret := strBytes ("AWS4" ++ creds.secret_access_key)
  let k_date := hmac_sha256 k_secret (strBytes date)
  let k_region := hmac_sha256 k_date (strBytes creds.region)
  let k_service := hmac_sha256 k_region (strBytes service)
  hmac_sha256 k_service (strBytes "aws4_request")

/-- The header merging of `sign_request`: clone the caller's map, insert `host`
and `x-amz-date` (overwriting equal keys), insert `x-amz-security-token` only when
the credentials carry a session token, then insert `x-amz-content-sha256`. -/
def mergedHeaders (creds : AwsCredentials) (headers : Hmap)
    (host timestamp payload_hash : String) : Hmap :=
  let m1 := mapInsert "host" host headers
  let m2 := mapInsert "x-amz-date" timestamp m1
  let m3 :=
    match creds.session_token with
    | some token => mapInsert "x-amz-security-token" token m2
    | none => m2
  mapInsert "x-amz-content-sha256" payload_hash m3

/-- The successful body of `sign_request`, given the parsed URL and the clock
reading `now` (whole seconds since the Unix epoch, `Duration::as_secs`). -/
def signRequestBody (creds : AwsCredentials) (service method : String)
    (parsed_url : ParsedUrl) (headers : Hmap) (payload : List Nat) (now : Nat) : Hmap :=
  let timestamp := format_timestamp now
  let date := String.mk (timestamp.data.take 8)
  let payload_hash := sha256_hex payload
  let signed_headers := mergedHeaders creds headers parsed_url.host timestamp payload_hash
  let canonical_request := create_canonical_request method parsed_url signed_headers payload_hash
  let credential_scope := date ++ "/" ++ creds.region ++ "/" ++ service ++ "/aws4_request"
  let string_to_sign := "AWS4-HMAC-SHA256\n" ++ timestamp ++ "\n" ++ credential_scope ++ "\n" ++
    sha256_hex (strBytes canonical_request)
  let signing_key := derive_signing_key creds service date
  let signature := hmac_sha256_hex signing_key (strBytes string_to_sign)
  let signed_header_names := String.intercalate ";" (signed_headers.map (fun kv => kv.1))
  let authorization := "AWS4-HMAC-SHA256 Credential=" ++ creds.access_key_id ++ "/" ++
    credential_scope ++ ", SignedHeaders=" ++ signed_header_names ++ ", Signature=" ++ signature
  mapInsert "authorization" authorization signed_headers

/-- `sign_request`. The clock read is an explicit argument:
`SystemTime::now().duration_since(UNIX_EPOCH)` yields `Err(e)` exactly when the
clock reads before the epoch, and the source maps that error to
`Error::Internal(format!("System time error: {}", e))` and returns early. -/
def sign_request (clock : Except String Nat) (creds : AwsCredentials)
    (service method url : String) (headers : Hmap) (payload : List Nat) :
    Except GError Hmap :=
  match clock with
  | .error e => .error (.Internal ("System time error: " ++ e))
  | .ok now =>
    match parse_url url with
    | .error e => .error e
    | .ok parsed_url => .ok (signRequestBody creds service method parsed_url headers payload now)

/-- Projection for stating facts about a successful `sign_request` result. -/
def getOkHeaders : Except GError Hmap → Hmap
  | .ok m => m
  | .error _ => []

/-- `crate::Headers` (only its presence matters for the claims). -/
abbrev Headers := List (String × String)

/-- `AuthData` from `src/resolver/auth_data.rs`. `MultiKeys` holds a
`HashMap<String, String>`, modelled as an association list (its content is never
inspected by the functions under verification). -/
inductive AuthData where
  | FromEnv : String → AuthData
  | Key : String → AuthData
  | BearerToken : String → AuthData
  | RequestOverride : String → Headers → AuthData
  | MultiKeys : List (String × String) → AuthData

/-- `resolver::Error`, restricted to the variants `single_key_value` constructs. -/
inductive ResolverError where
  | ApiKeyEnvNotFound : String → ResolverError
  | ResolverAuthDataNotSingleValue : ResolverError
deriving DecidableEq

/-- `AuthData::single_key_value`; the process environment is an explicit
argument (`std::env::var`, `Err` when unset). -/
def single_key_value (env : String → Option String) : AuthData → Except ResolverError String
  | .RequestOverride _ _ => .ok ""
  | .BearerToken value => .ok value
  | .FromEnv env_name =>
    match env env_name with
    | some value => .ok value
    | none => .error (.ApiKeyEnvNotFound env_name)
  | .Key value => .ok value
  | .MultiKeys _ => .error .ResolverAuthDataNotSingleValue

/-- The hand-written redacting `Debug` implementation of `AuthData`. -/
def authDataDebug : AuthData → String
  | .FromEnv _ => "AuthData::FromEnv(REDACTED)"
  | .Key _ => "AuthData::Single(REDACTED)"
  | .BearerToken _ => "AuthData::BearerToken(REDACTED)"
  | .MultiKeys _ => "AuthData::Multi(REDACTED)"
  | .RequestOverride _ _ => "AuthData::RequestOverride \x7b url: REDACTED, headers: REDACTED \x7d"

/-- Rust's `Debug` escaping for one character of a string (the escapes relevant to
this model: backslash, quote, newline, tab, carriage return; other printable
characters pass through). -/
def escDebugChar (c : Char) : List Char :=
  if c = '"' then ['\\', '"']
  else if c = '\\' then ['\\', '\\']
  else if c = '\n' then ['\\', 'n']
  else if c = '\t' then ['\\', 't']
  else if c = '\r' then ['\\', 'r']
  else [c]

/-- Rust's `Debug` for `String`: quoted and escaped. -/
def rustStrDebug (s : String) : String :=
  "\"" ++ String.mk (s.data.flatMap escDebugChar) ++ "\""

/-- The `#[derive(Debug)]` output for `AwsCredentials` (standard derive layout:
struct name, then each field as `name: value` with `Debug`-formatted values). -/
def awsCredentialsDebug (c : AwsCredentials) : String :=
  "AwsCredentials \x7b access_key_id: " ++ rustStrDebug c.access_key_id ++
    ", secret_access_key: " ++ rustStrDebug c.secret_access_key ++
    ", session_token: " ++
    (match c.session_token with
     | some t => "Some(" ++ rustStrDebug t ++ ")"
     | none => "None") ++
    ", region: " ++ rustStrDebug c.region ++ " \x7d"

/-- Whether the first list is an initial segment of the second. -/
def leadsWith : List Char → List Char → Bool
  | [], _ => true
  | _ :: _, [] => false
  | x :: xs, y :: ys => x == y && leadsWith xs ys

/-- Whether `needle` occurs anywhere in the second list. -/
def containsL (needle : List Char) : List Char → Bool
  | [] => needle.isEmpty
  | c :: rest => leadsWith needle (c :: rest) || containsL needle rest

/-- Rust `str::contains` for a string pattern. -/
def strContains (haystack needle : String) : Bool :=
  containsL needle.data haystack.data

end AwsAuth

namespace AwsAuth

lemma roundStep_length (k wi : Nat) (vs : List Nat) :
    (roundStep k wi vs).length = vs.length := by
  unfold roundStep
  split
  · simp
  · rfl

lemma rounds_length (ks : List Nat) : ∀ (ws vs : List Nat),
    (rounds ks ws vs).length = vs.length := by
  induction ks with
  | nil => intro ws vs; simp [rounds]
  | cons k ks ih =>
    intro ws vs
    cases ws with
    | nil => simp [rounds]
    | cons w ws => rw [rounds, ih, roundStep_length]

lemma compress_length (hs chunk : List Nat) : (compress hs chunk).length = hs.length := by
  simp [compress, rounds_length]

lemma processChunks_length : ∀ (n : Nat) (hs l : List Nat),
    (processChunks n hs l).length = hs.length := by
  intro n
  induction n with
  | zero => intro hs l; rfl
  | succ n ih => intro hs l; rw [processChunks, ih, compress_length]

lemma beBytes_length (n v : Nat) : (beBytes n v).length = n := by
  simp [beBytes]

lemma flatMap_beBytes4_length : ∀ (hs : List Nat),
    (hs.flatMap (fun w => beBytes 4 w)).length = 4 * hs.length := by
  intro hs
  induction hs with
  | nil => rfl
  | cons w hs ih =>
    rw [List.flatMap_cons, List.length_append, beBytes_length, ih, List.length_cons]
    omega

lemma sha256_length (data : List Nat) : (sha256 data).length = 32 := by
  have h8 := processChunks_length ((padMsg data).length / 64) H0 (padMsg data)
  simp only [sha256]
  rw [flatMap_beBytes4_length, h8]
  rfl

lemma hmacKeyBlock_length (key : List Nat) : (hmacKeyBlock key).length = 64 := by
  unfold hmacKeyBlock
  split
  · rw [List.length_append, List.length_replicate, sha256_length]
  · rename_i h
    rw [List.length_append, List.length_replicate]
    omega

lemma rangeMap_getD (f : Nat → Nat) (l : List Nat) :
    (List.range l.length).map (fun i => f (l.getD i 0)) = l.map f := by
  induction l with
  | nil => rfl
  | cons a l ih =>
    rw [List.length_cons, List.range_succ_eq_map, List.map_cons, List.map_map]
    simp only [Function.comp_def, List.getD_cons_succ, List.getD_cons_zero]
    rw [ih, List.map_cons]

lemma padZeros_eq : ∀ (fuel : Nat) (l : List Nat),
    (120 - l.length % 64) % 64 ≤ fuel →
    padZeros fuel l = l ++ List.replicate ((120 - l.length % 64) % 64) 0 := by
  intro fuel
  induction fuel with
  | zero =>
    intro l h
    have hz : (120 - l.length % 64) % 64 = 0 := Nat.le_zero.mp h
    rw [padZeros, hz]
    simp
  | succ fuel ih =>
    intro l h
    rw [padZeros]
    by_cases h56 : l.length % 64 = 56
    · have : (120 - l.length % 64) % 64 = 0 := by omega
      rw [this]
      simp [h56]
    · have hbeq : (l.length % 64 == 56) = false := by
        simp [h56]
      rw [hbeq]
      simp only [Bool.false_eq_true, if_false]
      have hlen : (l ++ [0]).length = l.length + 1 := by simp
      have hz : (120 - (l ++ [0]).length % 64) % 64 = (120 - l.length % 64) % 64 - 1 := by
        rw [hlen]; omega
      have hle : (120 - (l ++ [0]).length % 64) % 64 ≤ fuel := by
        rw [hz]; omega
      rw [ih (l ++ [0]) hle, hz]
      have hpos : 1 ≤ (120 - l.length % 64) % 64 := by omega
      rw [List.append_assoc]
      congr 1
      have h1 : [(0 : Nat)] ++ List.replicate ((120 - l.length % 64) % 64 - 1) 0 =
          List.replicate (((120 - l.length % 64) % 64 - 1) + 1) 0 := by
        rw [List.replicate_succ]
        rfl
      rw [h1]
      congr 1
      omega

/-- C5: the SHA-256 implementation pads by appending `0x80`, then zero bytes until the
length is 56 mod 64, then the original bit length as a 64-bit big-endian integer
(so the padded message is an exact number of 64-byte blocks), and — being a total
Lean function — it is deterministic and total; its digests match the standard test
vectors for the empty input and for "hello". -/
theorem c5_sha256_padding_and_vectors :
    (∀ data : List Nat, ∃ z : Nat,
      padMsg data = data ++ [0x80] ++ List.replicate z 0 ++
        beBytes 8 ((data.length * 8) % (2 ^ 64)) ∧
      (data.length + 1 + z) % 64 = 56 ∧
      (padMsg data).length % 64 = 0) ∧
    sha256_hex (strBytes "") = "e3b0c44298fc1c149afbf4c8996fb92427ae41e4649b934ca495991b7852b855" ∧
    sha256_hex (strBytes "hello") = "2cf24dba5fb0a30e26e83b2ac5b9e29e1b161e5c1fa7425e73043362938b9824" := by
  refine ⟨fun data => ?_, by decide, by decide⟩
  refine ⟨(120 - (data ++ [0x80]).length % 64) % 64, ?_, ?_, ?_⟩
  · rw [padMsg, padZeros_eq 64 (data ++ [0x80]) (by omega)]
  · have : (data ++ [0x80]).length = data.length + 1 := by simp
    rw [this]
    omega
  · rw [padMsg, padZeros_eq 64 (data ++ [0x80]) (by omega)]
    have h1 : (data ++ [0x80]).length = data.length + 1 := by simp
    rw [List.length_append, List.length_append, List.length_replicate, beBytes_length, h1]
    omega

/-- C6: `hmac_sha256` is exactly the HMAC construction
`hash((key' XOR 0x5c…) ++ hash((key' XOR 0x36…) ++ data))` over the 64-byte padded
key block `key'` (the key is replaced by its hash when longer than 64 bytes, then
zero-padded to 64 bytes), and it reproduces the standard published test vector. -/
theorem c6_hmac_construction :
    (∀ key data : List Nat,
      hmac_sha256 key data =
        sha256 ((hmacKeyBlock key).map (fun b => b ^^^ 0x5c) ++
          sha256 ((hmacKeyBlock key).map (fun b => b ^^^ 0x36) ++ data))) ∧
    hmac_sha256_hex (strBytes "key") (strBytes "The quick brown fox jumps over the lazy dog") =
      "f7bc83f430538424b13298e6aa6fb143ef4d59a14946175997479dbc2d1a3cd8" := by
  refine ⟨fun key data => ?_, by decide⟩
  have hkb : hmacKeyBlock key =
      (if key.length > 64 then sha256 key else key) ++
        List.replicate (64 - (if key.length > 64 then sha256 key else key).length) 0 := rfl
  have hlen := hmacKeyBlock_length key
  have hmap : ∀ c : Nat,
      (List.range 64).map (fun i => c ^^^ (hmacKeyBlock key).getD i 0) =
        (hmacKeyBlock key).map (fun b => b ^^^ c) := by
    intro c
    have := rangeMap_getD (fun b => c ^^^ b) (hmacKeyBlock key)
    rw [hlen] at this
    rw [this]
    exact List.map_congr_left (fun b _ => Nat.xor_comm c b)
  calc hmac_sha256 key data
      = sha256 ((List.range 64).map (fun i => 0x5c ^^^ (hmacKeyBlock key).getD i 0) ++
          sha256 ((List.range 64).map (fun i => 0x36 ^^^ (hmacKeyBlock key).getD i 0) ++ data)) :=
        rfl
    _ = sha256 ((hmacKeyBlock key).map (fun b => b ^^^ 0x5c) ++
          sha256 ((hmacKeyBlock key).map (fun b => b ^^^ 0x36) ++ data)) := by
        rw [hmap 0x36, hmap 0x5c]

lemma bytesLt_irrefl : ∀ (a : List Nat), bytesLt a a = false := by
  intro a
  induction a with
  | nil => rfl
  | cons x xs ih => simp [bytesLt, ih]

lemma bytesLt_trans : ∀ (a b c : List Nat),
    bytesLt a b = true → bytesLt b c = true → bytesLt a c = true := by
  intro a
  induction a with
  | nil =>
    intro b c hab hbc
    cases b with
    | nil => simp [bytesLt] at hab
    | cons y ys =>
      cases c with
      | nil => simp [bytesLt] at hbc
      | cons z zs => simp [bytesLt]
  | cons x xs ih =>
    intro b c hab hbc
    cases b with
    | nil => simp [bytesLt] at hab
    | cons y ys =>
      cases c with
      | nil => simp [bytesLt] at hbc
      | cons z zs =>
        simp only [bytesLt] at hab hbc ⊢
        rcases Nat.lt_trichotomy x y with hxy | hxy | hxy
        · rcases Nat.lt_trichotomy y z with hyz | hyz | hyz
          · simp [Nat.lt_trans hxy hyz]
          · subst hyz
            simp [hxy]
          · rw [if_neg (by omega), if_pos hyz] at hbc
            exact absurd hbc (by simp)
        · subst hxy
          rcases Nat.lt_trichotomy x z with hxz | hxz | hxz
          · simp [hxz]
          · subst hxz
            rw [if_neg (by omega), if_neg (by omega)] at hab hbc ⊢
            exact ih ys zs hab hbc
          · rw [if_neg (by omega), if_pos hxz] at hbc
            exact absurd hbc (by simp)
        · rw [if_neg (by omega), if_pos hxy] at hab
          exact absurd hab (by simp)

lemma bytesLt_asymm (a b : List Nat) (hab : bytesLt a b = true) :
    bytesLt b a = false := by
  by_contra h
  have hba : bytesLt b a = true := by
    cases hb : bytesLt b a
    · exact absurd hb h
    · rfl
  have := bytesLt_trans a b a hab hba
  rw [bytesLt_irrefl] at this
  exact Bool.false_ne_true this

lemma bytesLt_total : ∀ (a b : List Nat),
    bytesLt a b = true ∨ a = b ∨ bytesLt b a = true := by
  intro a
  induction a with
  | nil =>
    intro b
    cases b with
    | nil => exact Or.inr (Or.inl rfl)
    | cons y ys => exact Or.inl (by simp [bytesLt])
  | cons x xs ih =>
    intro b
    cases b with
    | nil => exact Or.inr (Or.inr (by simp [bytesLt]))
    | cons y ys =>
      rcases Nat.lt_trichotomy x y with hxy | hxy | hxy
      · exact Or.inl (by simp [bytesLt, hxy])
      · subst hxy
        rcases ih ys with h | h | h
        · exact Or.inl (by simp [bytesLt, h])
        · exact Or.inr (Or.inl (by rw [h]))
        · exact Or.inr (Or.inr (by simp [bytesLt, h]))
      · exact Or.inr (Or.inr (by simp [bytesLt, hxy]))

instance : IsTotal (List Nat × List Nat) PairLeR := by
  constructor
  intro p q
  unfold PairLeR pairLe
  rcases bytesLt_total p.1 q.1 with h | h | h
  · exact Or.inl (by simp [h])
  · rcases bytesLt_total p.2 q.2 with h2 | h2 | h2
    · exact Or.inl (by simp [h, h2])
    · exact Or.inl (by simp [h, h2])
    · exact Or.inr (by simp [h, h2])
  · exact Or.inr (by simp [h])

instance : IsTrans (List Nat × List Nat) PairLeR := by
  constructor
  intro p q r hpq hqr
  unfold PairLeR pairLe at hpq hqr ⊢
  simp only [Bool.or_eq_true, Bool.and_eq_true, beq_iff_eq] at hpq hqr ⊢
  rcases hpq with h1 | ⟨h1, h2⟩
  · rcases hqr with h3 | ⟨h3, h4⟩
    · exact Or.inl (bytesLt_trans _ _ _ h1 h3)
    · exact Or.inl (h3 ▸ h1)
  · rcases hqr with h3 | ⟨h3, h4⟩
    · exact Or.inl (h1 ▸ h3)
    · refine Or.inr ⟨h1.trans h3, ?_⟩
      rcases h2 with h2 | h2
      · rcases h4 with h4 | h4
        · exact Or.inl (bytesLt_trans _ _ _ h2 h4)
        · exact Or.inl (h4 ▸ h2)
      · rcases h4 with h4 | h4
        · exact Or.inl (h2 ▸ h4)
        · exact Or.inr (h2.trans h4)

instance : IsAntisymm (List Nat × List Nat) PairLeR := by
  constructor
  intro p q hpq hqp
  unfold PairLeR pairLe at hpq hqp
  simp only [Bool.or_eq_true, Bool.and_eq_true, beq_iff_eq] at hpq hqp
  rcases hpq with h1 | ⟨h1, h2⟩
  · rcases hqp with h3 | ⟨h3, h4⟩
    · have := bytesLt_asymm _ _ h1
      rw [h3] at this
      exact absurd this (by simp)
    · rw [h3] at h1
      rw [bytesLt_irrefl] at h1
      exact absurd h1 (by simp)
  · rcases hqp with h3 | ⟨h3, h4⟩
    · rw [h1] at h3
      rw [bytesLt_irrefl] at h3
      exact absurd h3 (by simp)
    · rcases h2 with h2 | h2
      · rcases h4 with h4 | h4
        · have := bytesLt_asymm _ _ h2
          rw [h4] at this
          exact absurd this (by simp)
        · rw [h4] at h2
          rw [bytesLt_irrefl] at h2
          exact absurd h2 (by simp)
      · exact Prod.ext h1 h2

lemma uri_encode_unres : ∀ (l : List Nat), l.all isUnreserved = true → uri_encode true l = l := by
  intro l
  induction l with
  | nil => intro _; rfl
  | cons b l ih =>
    intro h
    rw [List.all_cons, Bool.and_eq_true] at h
    show (if isUnreserved b then [b]
        else if b == 47 && !true then [b]
        else [37, hexUpperDigit (b / 16), hexUpperDigit (b % 16)]) ++ uri_encode true l
      = b :: l
    rw [if_pos h.1, ih h.2]
    rfl

lemma splitAll_ne_nil (sep : Nat) : ∀ (l : List Nat), splitAll sep l ≠ [] := by
  intro l
  induction l with
  | nil => simp [splitAll]
  | cons b rest ih =>
    rw [splitAll]
    by_cases hb : (b == sep) = true
    · rw [if_pos hb]
      simp
    · rw [if_neg hb]
      cases hsp : splitAll sep rest with
      | nil => exact absurd hsp ih
      | cons p ps => simp

lemma splitAll_no_sep (sep : Nat) : ∀ (l : List Nat), sep ∉ l → splitAll sep l = [l] := by
  intro l
  induction l with
  | nil => intro _; rfl
  | cons b rest ih =>
    intro h
    have hb : (b == sep) = false := by
      simp only [List.mem_cons, not_or] at h
      simp [Ne.symm h.1]
    have hrest : sep ∉ rest := by
      simp only [List.mem_cons, not_or] at h
      exact h.2
    rw [splitAll, if_neg (by simp [hb]), ih hrest]

lemma splitAll_sep_append (sep : Nat) : ∀ (p rest : List Nat), sep ∉ p →
    splitAll sep (p ++ sep :: rest) = p :: splitAll sep rest := by
  intro p
  induction p with
  | nil =>
    intro rest _
    rw [List.nil_append, splitAll, if_pos (by simp)]
  | cons b p ih =>
    intro rest h
    have hb : (b == sep) = false := by
      simp only [List.mem_cons, not_or] at h
      simp [Ne.symm h.1]
    have hp : sep ∉ p := by
      simp only [List.mem_cons, not_or] at h
      exact h.2
    rw [List.cons_append, splitAll, if_neg (by simp [hb]), ih rest hp]

lemma splitFirst_sep_append (sep : Nat) : ∀ (k v : List Nat), sep ∉ k →
    splitFirst sep (k ++ sep :: v) = (k, some v) := by
  intro k
  induction k with
  | nil =>
    intro v _
    rw [List.nil_append, splitFirst, if_pos (by simp)]
  | cons b k ih =>
    intro v h
    have hb : (b == sep) = false := by
      simp only [List.mem_cons, not_or] at h
      simp [Ne.symm h.1]
    have hk : sep ∉ k := by
      simp only [List.mem_cons, not_or] at h
      exact h.2
    rw [List.cons_append, splitFirst, if_neg (by simp [hb]), ih v hk]

lemma intercalate_cons₂ (sep a b : List Nat) (rest : List (List Nat)) :
    List.intercalate sep (a :: b :: rest) = a ++ sep ++ List.intercalate sep (b :: rest) := by
  simp [List.intercalate]

lemma intercalate_single (sep a : List Nat) : List.intercalate sep [a] = a := by
  simp [List.intercalate]

lemma splitAll_intercalate : ∀ (ps : List (List Nat)), ps ≠ [] →
    (∀ p ∈ ps, (38 : Nat) ∉ p) →
    splitAll 38 (List.intercalate [38] ps) = ps := by
  intro ps
  induction ps with
  | nil => intro h _; exact absurd rfl h
  | cons p ps ih =>
    intro _ hmem
    cases ps with
    | nil =>
      rw [intercalate_single]
      exact splitAll_no_sep 38 p (hmem p (by simp))
    | cons p2 ps2 =>
      rw [intercalate_cons₂, List.append_assoc]
      have h38 : (38 : Nat) ∉ p := hmem p (by simp)
      rw [show ([38] : List Nat) ++ List.intercalate [38] (p2 :: ps2) =
          38 :: List.intercalate [38] (p2 :: ps2) from rfl]
      rw [splitAll_sep_append 38 p _ h38]
      rw [ih (by simp) (fun x hx => hmem x (by simp [hx]))]

lemma mem_all_unres {l : List Nat} {b : Nat} (hall : l.all isUnreserved = true)
    (hb : b ∈ l) : isUnreserved b = true := by
  rw [List.all_eq_true] at hall
  exact hall b hb

lemma unres_ne_38 {b : Nat} (h : isUnreserved b = true) : b ≠ 38 := by
  intro hb
  subst hb
  exact absurd h (by decide)

lemma unres_ne_61 {b : Nat} (h : isUnreserved b = true) : b ≠ 61 := by
  intro hb
  subst hb
  exact absurd h (by decide)

lemma canonicalPairs_mem (q : List Nat) {kv : List Nat × List Nat}
    (h : kv ∈ canonicalPairs q) : kv ∈ (splitAll 38 q).map encodePair :=
  (List.perm_insertionSort PairLeR _).subset h

lemma canonicalPairs_sorted (q : List Nat) : List.Sorted PairLeR (canonicalPairs q) :=
  List.sorted_insertionSort PairLeR _

lemma canonicalPairs_unres (q : List Nat)
    (hq : ∀ p ∈ splitAll 38 q, pairUnreserved p = true) :
    ∀ kv ∈ canonicalPairs q, kv.1.all isUnreserved = true ∧ kv.2.all isUnreserved = true := by
  intro kv hkv
  obtain ⟨p, hp, hpe⟩ := List.mem_map.mp (canonicalPairs_mem q hkv)
  have hpu := hq p hp
  rw [pairUnreserved, Bool.and_eq_true] at hpu
  subst hpe
  rw [encodePair, uri_encode_unres _ hpu.1, uri_encode_unres _ hpu.2]
  exact ⟨hpu.1, hpu.2⟩

lemma canonicalPairs_of_canonicalQuery (q : List Nat)
    (hq : ∀ p ∈ splitAll 38 q, pairUnreserved p = true) :
    canonicalPairs (canonicalQuery q) = canonicalPairs q := by
  have hunres := canonicalPairs_unres q hq
  have hsplit : splitAll 38 (canonicalQuery q) =
      (canonicalPairs q).map (fun p => p.1 ++ [61] ++ p.2) := by
    rw [canonicalQuery]
    apply splitAll_intercalate
    · intro hnil
      have hne := splitAll_ne_nil 38 q
      have : canonicalPairs q = [] := by
        cases hcp : canonicalPairs q with
        | nil => rfl
        | cons x xs => rw [hcp] at hnil; exact absurd hnil (by simp)
      have hperm := List.perm_insertionSort PairLeR ((splitAll 38 q).map encodePair)
      rw [show List.insertionSort PairLeR ((splitAll 38 q).map encodePair) =
          canonicalPairs q from rfl, this] at hperm
      have := hperm.symm.length_eq
      simp only [List.length_nil, List.length_map] at this
      cases hsp : splitAll 38 q with
      | nil => exact hne hsp
      | cons y ys => rw [hsp] at this; simp at this
    · intro piece hpiece
      obtain ⟨kv, hkv, hkve⟩ := List.mem_map.mp hpiece
      obtain ⟨h1, h2⟩ := hunres kv hkv
      subst hkve
      intro hmem
      rcases List.mem_append.mp hmem with hmem | hmem
      · rcases List.mem_append.mp hmem with hmem | hmem
        · exact unres_ne_38 (mem_all_unres h1 hmem) rfl
        · simp at hmem
      · exact unres_ne_38 (mem_all_unres h2 hmem) rfl
  have hpairs : (splitAll 38 (canonicalQuery q)).map encodePair = canonicalPairs q := by
    rw [hsplit, List.map_map]
    have : ∀ kv ∈ canonicalPairs q,
        (encodePair ∘ fun p => p.1 ++ [61] ++ p.2) kv = kv := by
      intro kv hkv
      obtain ⟨h1, h2⟩ := hunres kv hkv
      have h61 : (61 : Nat) ∉ kv.1 := fun hmem => unres_ne_61 (mem_all_unres h1 hmem) rfl
      simp only [Function.comp_def]
      rw [show kv.1 ++ [61] ++ kv.2 = kv.1 ++ 61 :: kv.2 by simp]
      rw [encodePair, splitFirst_sep_append 61 kv.1 kv.2 h61]
      simp only [Option.getD_some]
      rw [uri_encode_unres _ h1, uri_encode_unres _ h2]
    calc (canonicalPairs q).map (encodePair ∘ fun p => p.1 ++ [61] ++ p.2)
        = (canonicalPairs q).map id := List.map_congr_left (fun kv hkv => this kv hkv)
      _ = canonicalPairs q := List.map_id _
  rw [canonicalPairs, hpairs]
  exact (canonicalPairs_sorted q).insertionSort_eq

/-- C3 counterexample: canonicalization is not idempotent. `"a= "` canonicalizes to
`"a=%20"`, which is itself in canonical form, but canonicalizing it again yields
`"a=%2520"` — the already-escaped `%` is escaped once more. -/
theorem c3_counterexample_idempotence :
    ¬ (canonicalQuery (canonicalQuery (strBytes "a= ")) = canonicalQuery (strBytes "a= ")) := by
  decide

/-- C3 (amended): the canonical query construction sorts the percent-encoded
`(key, value)` pairs by encoded key then encoded value — the output pairs are sorted,
are a permutation of the encoded input pairs, and the result depends only on the
multiset of encoded pairs (so it is independent of the original order).
Canonicalization is idempotent on queries whose keys and values consist solely of
unreserved bytes; it is NOT idempotent in general (see the counterexample). -/
theorem c3_canonical_query_sorted_and_idem :
    (∀ q : List Nat,
      List.Sorted PairLeR (canonicalPairs q) ∧
      (canonicalPairs q).Perm ((splitAll 38 q).map encodePair) ∧
      canonicalQuery q =
        List.intercalate [38] ((canonicalPairs q).map (fun p => p.1 ++ [61] ++ p.2))) ∧
    (∀ q q' : List Nat,
      ((splitAll 38 q).map encodePair).Perm ((splitAll 38 q').map encodePair) →
      canonicalQuery q = canonicalQuery q') ∧
    (∀ q : List Nat,
      (∀ p ∈ splitAll 38 q, pairUnreserved p = true) →
      canonicalQuery (canonicalQuery q) = canonicalQuery q) := by
  refine ⟨fun q => ⟨canonicalPairs_sorted q, List.perm_insertionSort PairLeR _, rfl⟩,
    fun q q' hperm => ?_, fun q hq => ?_⟩
  · have heq : canonicalPairs q = canonicalPairs q' := by
      apply List.eq_of_perm_of_sorted
        ((List.perm_insertionSort PairLeR _).trans
          (hperm.trans (List.perm_insertionSort PairLeR _).symm))
        (canonicalPairs_sorted q) (canonicalPairs_sorted q')
    rw [canonicalQuery, canonicalQuery, heq]
  · rw [canonicalQuery, canonicalPairs_of_canonicalQuery q hq]
    rfl

/-- C3 witness: a concrete instance of both hypothesis-bearing parts — reordering
a two-pair query does not change the canonical query string, and a fully
unreserved query canonicalizes idempotently. -/
theorem c3_canonical_query_witness :
    canonicalQuery (strBytes "b=2&a=1") = canonicalQuery (strBytes "a=1&b=2") ∧
    canonicalQuery (canonicalQuery (strBytes "b=2&a=1")) = canonicalQuery (strBytes "b=2&a=1") :=
  ⟨c3_canonical_query_sorted_and_idem.2.1 (strBytes "b=2&a=1") (strBytes "a=1&b=2") (by decide),
   c3_canonical_query_sorted_and_idem.2.2 (strBytes "b=2&a=1") (by decide)⟩

lemma daysInYear_ge (y : Nat) : 365 ≤ daysInYear y := by
  rw [daysInYear]
  split <;> omega

lemma yearSpan_self (a : Nat) : yearSpan a a = 0 := by
  simp [yearSpan]

lemma yearSpan_head {a b : Nat} (h : a < b) :
    yearSpan a b = daysInYear a + yearSpan (a + 1) b := by
  have h1 : b - a = (b - (a + 1)) + 1 := by omega
  rw [yearSpan, h1, List.range_succ_eq_map, List.map_cons, List.map_map, List.sum_cons]
  have h2 : ((fun i => daysInYear (a + i)) ∘ Nat.succ) = (fun i => daysInYear (a + 1 + i)) := by
    funext i
    simp only [Function.comp_def]
    congr 1
    omega
  rw [h2]
  congr 1

lemma yearSpan_split : ∀ (k a b c : Nat), b - a = k → a ≤ b → b ≤ c →
    yearSpan a c = yearSpan a b + yearSpan b c := by
  intro k
  induction k with
  | zero =>
    intro a b c hk hab _
    have hab' : a = b := by omega
    subst hab'
    rw [yearSpan_self]
    omega
  | succ k ih =>
    intro a b c hk hab hbc
    have hab' : a < b := by omega
    rw [yearSpan_head (show a < c by omega), yearSpan_head hab',
      ih (a + 1) b c (by omega) (by omega) hbc]
    omega

lemma yearLoop_spec : ∀ (fuel year remaining : Nat), remaining < fuel →
    year ≤ (yearLoop fuel year remaining).1 ∧
    (yearLoop fuel year remaining).2 < daysInYear (yearLoop fuel year remaining).1 ∧
    yearSpan year (yearLoop fuel year remaining).1 + (yearLoop fuel year remaining).2
      = remaining := by
  intro fuel
  induction fuel with
  | zero =>
    intro year remaining h
    exact absurd h (Nat.not_lt_zero _)
  | succ fuel ih =>
    intro year remaining h
    rw [yearLoop]
    by_cases hlt : remaining < daysInYear year
    · rw [if_pos hlt]
      refine ⟨Nat.le_refl _, hlt, ?_⟩
      rw [yearSpan_self]
      simp
    · rw [if_neg hlt]
      have hd := daysInYear_ge year
      have hrec := ih (year + 1) (remaining - daysInYear year) (by omega)
      have hy : year < (yearLoop fuel (year + 1) (remaining - daysInYear year)).1 := by
        have := hrec.1
        omega
      refine ⟨by omega, hrec.2.1, ?_⟩
      rw [yearSpan_head hy]
      have := hrec.2.2
      omega

lemma year_decomp_unique {y1 y2 r1 r2 : Nat} (h1 : 1970 ≤ y1) (h2 : 1970 ≤ y2)
    (hr1 : r1 < daysInYear y1) (hr2 : r2 < daysInYear y2)
    (heq : yearSpan 1970 y1 + r1 = yearSpan 1970 y2 + r2) : y1 = y2 ∧ r1 = r2 := by
  rcases Nat.lt_trichotomy y1 y2 with h | h | h
  · exfalso
    have hs : yearSpan 1970 y2 = yearSpan 1970 y1 + yearSpan y1 y2 :=
      yearSpan_split (y1 - 1970) 1970 y1 y2 rfl h1 (by omega)
    have hh : yearSpan y1 y2 = daysInYear y1 + yearSpan (y1 + 1) y2 := yearSpan_head h
    omega
  · subst h
    omega
  · exfalso
    have hs : yearSpan 1970 y1 = yearSpan 1970 y2 + yearSpan y2 y1 :=
      yearSpan_split (y2 - 1970) 1970 y2 y1 rfl h2 (by omega)
    have hh : yearSpan y2 y1 = daysInYear y2 + yearSpan (y2 + 1) y1 := yearSpan_head h
    omega

lemma monthLoop_spec : ∀ (ds : List Nat) (month r : Nat),
    ∃ k, k ≤ ds.length ∧
      monthLoop ds month r = (month + k, r - (ds.take k).sum) ∧
      (ds.take k).sum ≤ r ∧
      (k < ds.length → r < (ds.take k).sum + ds.getD k 0) := by
  intro ds
  induction ds with
  | nil =>
    intro month r
    exact ⟨0, by simp, by simp [monthLoop], by simp, fun hk => absurd hk (by simp)⟩
  | cons d ds ih =>
    intro month r
    by_cases hlt : r < d
    · refine ⟨0, by simp, ?_, by simp, ?_⟩
      · rw [monthLoop, if_pos hlt]
        simp
      · intro _
        simpa using hlt
    · obtain ⟨k, hk1, hk2, hk3, hk4⟩ := ih (month + 1) (r - d)
      refine ⟨k + 1, by simpa using hk1, ?_, ?_, ?_⟩
      · rw [monthLoop, if_neg hlt, hk2, List.take_succ_cons, List.sum_cons]
        have : r - d - (ds.take k).sum = r - (d + (ds.take k).sum) := by omega
        rw [this]
        congr 1
        omega
      · rw [List.take_succ_cons, List.sum_cons]
        omega
      · intro hlen
        rw [List.take_succ_cons, List.sum_cons, List.getD_cons_succ]
        have := hk4 (by simpa using hlen)
        omega

lemma take_sum_mono : ∀ (l : List Nat) (i j : Nat), i ≤ j →
    (l.take i).sum ≤ (l.take j).sum := by
  intro l
  induction l with
  | nil => simp
  | cons d l ih =>
    intro i j hij
    cases i with
    | zero => simp
    | succ i =>
      cases j with
      | zero => omega
      | succ j =>
        rw [List.take_succ_cons, List.take_succ_cons, List.sum_cons, List.sum_cons]
        have := ih i j (by omega)
        omega

lemma take_sum_succ_getD : ∀ (l : List Nat) (k : Nat), k < l.length →
    (l.take (k + 1)).sum = (l.take k).sum + l.getD k 0 := by
  intro l
  induction l with
  | nil =>
    intro k hk
    simp at hk
  | cons d l ih =>
    intro k hk
    cases k with
    | zero => simp
    | succ k =>
      rw [List.take_succ_cons, List.take_succ_cons, List.sum_cons, List.sum_cons,
        List.getD_cons_succ, ih k (by simpa using hk)]
      omega

lemma pref_index_unique (ds : List Nat) (r : Nat) {k j : Nat}
    (hj_lt : j < ds.length)
    (hk_lo : (ds.take k).sum ≤ r)
    (hk_hi : k < ds.length → r < (ds.take k).sum + ds.getD k 0)
    (hj_lo : (ds.take j).sum ≤ r)
    (hj_hi : r < (ds.take j).sum + ds.getD j 0) : k = j := by
  rcases Nat.lt_trichotomy k j with h | h | h
  · exfalso
    have hkl : k < ds.length := by omega
    have h1 := hk_hi hkl
    have h2 : (ds.take (k + 1)).sum ≤ (ds.take j).sum := take_sum_mono ds (k + 1) j (by omega)
    rw [take_sum_succ_getD ds k hkl] at h2
    omega
  · exact h
  · exfalso
    have h2 : (ds.take (j + 1)).sum ≤ (ds.take k).sum := take_sum_mono ds (j + 1) k (by omega)
    rw [take_sum_succ_getD ds j hj_lt] at h2
    omega

lemma daysInMonths_length (b : Bool) : (daysInMonths b).length = 12 := by
  cases b <;> rfl

lemma daysInMonths_take12 (b : Bool) : (daysInMonths b).take 12 = daysInMonths b := by
  cases b <;> rfl

lemma daysInMonths_sum (y : Nat) : (daysInMonths (is_leap_year y)).sum = daysInYear y := by
  rw [daysInYear]
  cases h : is_leap_year y <;> simp [daysInMonths, h]

lemma days_to_ymd_eq (days : Nat) :
    days_to_ymd days =
      ((yearLoop (days + 1) 1970 days).1,
       (monthLoop (daysInMonths (is_leap_year (yearLoop (days + 1) 1970 days).1)) 1
         (yearLoop (days + 1) 1970 days).2).1,
       (monthLoop (daysInMonths (is_leap_year (yearLoop (days + 1) 1970 days).1)) 1
         (yearLoop (days + 1) 1970 days).2).2 + 1) := rfl

lemma days_to_ymd_spec (days : Nat) :
    validDate (days_to_ymd days).1 (days_to_ymd days).2.1 (days_to_ymd days).2.2 ∧
    daysFromCivil (days_to_ymd days).1 (days_to_ymd days).2.1 (days_to_ymd days).2.2
      = days := by
  have hyl := yearLoop_spec (days + 1) 1970 days (by omega)
  obtain ⟨k, hk1, hk2, hk3, hk4⟩ :=
    monthLoop_spec (daysInMonths (is_leap_year (yearLoop (days + 1) 1970 days).1)) 1
      (yearLoop (days + 1) 1970 days).2
  have hlen := daysInMonths_length (is_leap_year (yearLoop (days + 1) 1970 days).1)
  have hklt : k < 12 := by
    by_contra hcon
    have hk12 : k = 12 := by omega
    subst hk12
    rw [show (12 : Nat) = (daysInMonths (is_leap_year (yearLoop (days + 1) 1970 days).1)).length
        from hlen.symm, List.take_length] at hk3
    rw [daysInMonths_sum] at hk3
    have := hyl.2.1
    omega
  have hk4' := hk4 (by omega)
  rw [days_to_ymd_eq, hk2]
  dsimp only
  have hsimp : 1 + k - 1 = k := by omega
  constructor
  · refine ⟨hyl.1, by omega, by omega, by omega, ?_⟩
    rw [hsimp]
    omega
  · rw [daysFromCivil, hsimp]
    have := hyl.2.2
    omega

lemma days_to_ymd_unique (days y m d : Nat) (hv : validDate y m d)
    (hc : daysFromCivil y m d = days) : days_to_ymd days = (y, m, d) := by
  obtain ⟨hy, hm1, hm2, hd1, hd2⟩ := hv
  have hlen := daysInMonths_length (is_leap_year y)
  have hyl := yearLoop_spec (days + 1) 1970 days (by omega)
  have hr2lt : ((daysInMonths (is_leap_year y)).take (m - 1)).sum + (d - 1)
      < daysInYear y := by
    have hsucc := take_sum_succ_getD (daysInMonths (is_leap_year y)) (m - 1) (by omega)
    have hmono := take_sum_mono (daysInMonths (is_leap_year y)) (m - 1 + 1) 12 (by omega)
    rw [show (12 : Nat) = (daysInMonths (is_leap_year y)).length from hlen.symm,
      List.take_length, daysInMonths_sum] at hmono
    omega
  have hcsum : yearSpan 1970 y +
      (((daysInMonths (is_leap_year y)).take (m - 1)).sum + (d - 1)) = days := by
    rw [daysFromCivil] at hc
    omega
  have hyq := year_decomp_unique hy hyl.1
    (by exact hr2lt) hyl.2.1 (by rw [hcsum, hyl.2.2])
  obtain ⟨hyeq, hreq⟩ := hyq
  obtain ⟨k, hk1, hk2, hk3, hk4⟩ :=
    monthLoop_spec (daysInMonths (is_leap_year (yearLoop (days + 1) 1970 days).1)) 1
      (yearLoop (days + 1) 1970 days).2
  have hYy : (yearLoop (days + 1) 1970 days).1 = y := hyeq.symm
  rw [hYy] at hk2 hk3 hk4 hk1
  have hrY : (yearLoop (days + 1) 1970 days).2 =
      ((daysInMonths (is_leap_year y)).take (m - 1)).sum + (d - 1) := hreq.symm
  rw [hrY] at hk2 hk3 hk4
  have hkm : k = m - 1 := by
    apply pref_index_unique (daysInMonths (is_leap_year y))
      (((daysInMonths (is_leap_year y)).take (m - 1)).sum + (d - 1))
      (by omega) hk3 hk4 (by omega)
    have hd1' : d - 1 < (daysInMonths (is_leap_year y)).getD (m - 1) 0 := by omega
    omega
  rw [days_to_ymd_eq, hYy, hrY, hk2, hkm]
  have h1 : 1 + (m - 1) = m := by omega
  have h2 : ((daysInMonths (is_leap_year y)).take (m - 1)).sum + (d - 1)
      - ((daysInMonths (is_leap_year y)).take (m - 1)).sum + 1 = d := by omega
  rw [h1]
  simp only [Prod.mk.injEq]
  exact ⟨trivial, trivial, by omega⟩

/-- C7: `format_timestamp` renders the proleptic-Gregorian UTC decomposition of
the epoch second count, for every representable value: `days_to_ymd` always yields
the unique valid date whose day ordinal (per the leap rule "divisible by 4 and not
by 100, or divisible by 400") equals `secs / 86400`; hours/minutes/seconds are the
division decomposition of `secs % 86400`; and the published example holds. -/
theorem c7_format_timestamp_correct :
    (∀ secs : Nat, ∃ y m d : Nat,
      days_to_ymd (secs / 86400) = (y, m, d) ∧
      validDate y m d ∧
      daysFromCivil y m d = secs / 86400 ∧
      format_timestamp secs =
        renderTS y m d (secs % 86400 / 3600) (secs % 86400 % 3600 / 60)
          (secs % 86400 % 3600 % 60)) ∧
    (∀ secs y m d : Nat, validDate y m d → daysFromCivil y m d = secs / 86400 →
      days_to_ymd (secs / 86400) = (y, m, d)) ∧
    format_timestamp 1705321845 = "20240115T123045Z" := by
  refine ⟨fun secs => ?_, fun secs y m d hv hc => days_to_ymd_unique _ y m d hv hc,
    by decide⟩
  obtain ⟨hval, hciv⟩ := days_to_ymd_spec (secs / 86400)
  exact ⟨(days_to_ymd (secs / 86400)).1, (days_to_ymd (secs / 86400)).2.1,
    (days_to_ymd (secs / 86400)).2.2, rfl, hval, hciv, rfl⟩

/-- C7 witness: the uniqueness direction applied at the published example. -/
theorem c7_format_timestamp_witness :
    validDate 2024 1 15 ∧ daysFromCivil 2024 1 15 = 1705321845 / 86400 ∧
    days_to_ymd (1705321845 / 86400) = (2024, 1, 15) :=
  ⟨by decide, by decide,
    c7_format_timestamp_correct.2.1 1705321845 2024 1 15 (by decide) (by decide)⟩

lemma breakAtDrop_spec (c : Char) : ∀ (l : List Char),
    ((breakAtDrop c l).2 = none → (breakAtDrop c l).1 = l ∧ c ∉ l) ∧
    (∀ rest, (breakAtDrop c l).2 = some rest →
      l = (breakAtDrop c l).1 ++ c :: rest ∧ c ∉ (breakAtDrop c l).1) := by
  intro l
  induction l with
  | nil =>
    refine ⟨fun _ => ⟨rfl, by simp⟩, fun rest h => ?_⟩
    simp [breakAtDrop] at h
  | cons x xs ih =>
    by_cases hx : x = c
    · subst hx
      refine ⟨fun h => ?_, fun rest h => ?_⟩
      · rw [breakAtDrop, if_pos rfl] at h
        simp at h
      · rw [breakAtDrop, if_pos rfl] at h ⊢
        simp at h
        subst h
        simp
    · refine ⟨fun h => ?_, fun rest h => ?_⟩
      · rw [breakAtDrop, if_neg hx] at h
        have := (ih.1) h
        rw [breakAtDrop, if_neg hx]
        simp only [List.mem_cons, not_or]
        exact ⟨by rw [this.1], fun hc => hx hc.symm, this.2⟩
      · rw [breakAtDrop, if_neg hx] at h
        have := (ih.2) rest h
        rw [breakAtDrop, if_neg hx]
        constructor
        · rw [List.cons_append]
          rw [← this.1]
        · simp only [List.mem_cons, not_or]
          exact ⟨fun hc => hx hc.symm, this.2⟩

lemma breakAtKeep_spec (c : Char) : ∀ (l : List Char),
    ((breakAtKeep c l).2 = none → (breakAtKeep c l).1 = l ∧ c ∉ l) ∧
    (∀ rest, (breakAtKeep c l).2 = some rest →
      l = (breakAtKeep c l).1 ++ rest ∧ rest.head? = some c ∧
        c ∉ (breakAtKeep c l).1) := by
  intro l
  induction l with
  | nil =>
    refine ⟨fun _ => ⟨rfl, by simp⟩, fun rest h => ?_⟩
    simp [breakAtKeep] at h
  | cons x xs ih =>
    by_cases hx : x = c
    · subst hx
      refine ⟨fun h => ?_, fun rest h => ?_⟩
      · rw [breakAtKeep, if_pos rfl] at h
        simp at h
      · rw [breakAtKeep, if_pos rfl] at h ⊢
        simp at h
        subst h
        simp
    · refine ⟨fun h => ?_, fun rest h => ?_⟩
      · rw [breakAtKeep, if_neg hx] at h
        have := (ih.1) h
        rw [breakAtKeep, if_neg hx]
        simp only [List.mem_cons, not_or]
        exact ⟨by rw [this.1], fun hc => hx hc.symm, this.2⟩
      · rw [breakAtKeep, if_neg hx] at h
        have := (ih.2) rest h
        rw [breakAtKeep, if_neg hx]
        refine ⟨?_, this.2.1, ?_⟩
        · rw [List.cons_append, ← this.1]
        · simp only [List.mem_cons, not_or]
          exact ⟨fun hc => hx hc.symm, this.2.2⟩

lemma parseUrl_cases (url : String) :
    (parseUrl url).query = ((breakAtDrop '?' (dropScheme url.data)).2).map String.mk ∧
    (parseUrl url).host =
      String.mk (breakAtKeep '/' (breakAtDrop '?' (dropScheme url.data)).1).1 ∧
    ((breakAtKeep '/' (breakAtDrop '?' (dropScheme url.data)).1).2 = none →
      (parseUrl url).path = "/") ∧
    (∀ rest, (breakAtKeep '/' (breakAtDrop '?' (dropScheme url.data)).1).2 = some rest →
      (parseUrl url).path = String.mk rest) := by
  refine ⟨?_, ?_, ?_, ?_⟩
  · simp only [parseUrl]
    cases h : (breakAtKeep '/' (breakAtDrop '?' (dropScheme url.data)).1).2 <;> simp [h]
  · simp only [parseUrl]
    cases h : (breakAtKeep '/' (breakAtDrop '?' (dropScheme url.data)).1).2 <;> simp [h]
  · intro h
    simp only [parseUrl]
    simp [h]
  · intro rest h
    simp only [parseUrl]
    simp [h]

/-- C9: `parse_url` never rejects its input — it always returns `Ok` — and it
computes exactly the documented splits: a leading `https://` (tried first) or
`http://` is stripped; the remainder is split at the first `?` into host+path and
query (query absent when there is no `?`); host+path is split at the first `/`
into host (which contains no `/`) and path (which keeps the `/`), with path
defaulting to `"/"` when no `/` occurs. -/
theorem c9_parse_url_total_splits :
    ∀ url : String,
      parse_url url = Except.ok (parseUrl url) ∧
      (∃ u : List Char,
        ((url.data.take 8 = "https://".data ∧ u = url.data.drop 8) ∨
         (url.data.take 8 ≠ "https://".data ∧ url.data.take 7 = "http://".data ∧
           u = url.data.drop 7) ∨
         (url.data.take 8 ≠ "https://".data ∧ url.data.take 7 ≠ "http://".data ∧
           u = url.data)) ∧
        (∃ hp : List Char,
          '?' ∉ hp ∧
          ((parseUrl url).query = none ∧ u = hp ∨
           (∃ qs : List Char, (parseUrl url).query = some (String.mk qs) ∧
             u = hp ++ '?' :: qs)) ∧
          (('/' ∉ hp ∧ (parseUrl url).host = String.mk hp ∧ (parseUrl url).path = "/") ∨
           (∃ rest : List Char, hp = (parseUrl url).host.data ++ rest ∧
             rest.head? = some '/' ∧ '/' ∉ (parseUrl url).host.data ∧
             (parseUrl url).path = String.mk rest)))) := by
  intro url
  obtain ⟨hq, hh, hpn, hps⟩ := parseUrl_cases url
  refine ⟨rfl, dropScheme url.data, ?_, (breakAtDrop '?' (dropScheme url.data)).1, ?_, ?_, ?_⟩
  · rw [dropScheme]
    by_cases h8 : url.data.take 8 = "https://".data
    · rw [if_pos h8]
      exact Or.inl ⟨h8, rfl⟩
    · rw [if_neg h8]
      by_cases h7 : url.data.take 7 = "http://".data
      · rw [if_pos h7]
        exact Or.inr (Or.inl ⟨h8, h7, rfl⟩)
      · rw [if_neg h7]
        exact Or.inr (Or.inr ⟨h8, h7, rfl⟩)
  · cases hqq : (breakAtDrop '?' (dropScheme url.data)).2 with
    | none =>
      have hsp := (breakAtDrop_spec '?' (dropScheme url.data)).1 hqq
      rw [hsp.1]
      exact hsp.2
    | some rest => exact ((breakAtDrop_spec '?' (dropScheme url.data)).2 rest hqq).2
  · cases hqq : (breakAtDrop '?' (dropScheme url.data)).2 with
    | none =>
      refine Or.inl ⟨by rw [hq, hqq]; rfl, ?_⟩
      exact (((breakAtDrop_spec '?' (dropScheme url.data)).1) hqq).1.symm
    | some qs =>
      refine Or.inr ⟨qs, by rw [hq, hqq]; rfl, ?_⟩
      exact (((breakAtDrop_spec '?' (dropScheme url.data)).2) qs hqq).1
  · cases hkk : (breakAtKeep '/' (breakAtDrop '?' (dropScheme url.data)).1).2 with
    | none =>
      have hsp := ((breakAtKeep_spec '/' (breakAtDrop '?' (dropScheme url.data)).1).1) hkk
      refine Or.inl ⟨hsp.2, ?_, hpn hkk⟩
      rw [hh, hsp.1]
    | some rest =>
      have hsp := ((breakAtKeep_spec '/' (breakAtDrop '?' (dropScheme url.data)).1).2)
        rest hkk
      refine Or.inr ⟨rest, ?_, hsp.2.1, ?_, hps rest hkk⟩
      · rw [hh]
        exact hsp.1
      · rw [hh]
        exact hsp.2.2

/-- C9 witness: the theorem applied at a concrete URL, plus the concrete parse it
fixes. -/
theorem c9_parse_url_witness :
    parse_url "https://example.com/p?x=1" =
      Except.ok (parseUrl "https://example.com/p?x=1") ∧
    parseUrl "https://example.com/p?x=1" = ⟨"example.com", "/p", some "x=1"⟩ :=
  ⟨(c9_parse_url_total_splits "https://example.com/p?x=1").1, by decide⟩

lemma char_toNat_inj {a b : Char} (h : a.toNat = b.toNat) : a = b := by
  have h2 := congrArg Char.ofNat h
  rwa [Char.ofNat_toNat, Char.ofNat_toNat] at h2

lemma strData_map_toNat_inj {a b : String}
    (h : a.data.map Char.toNat = b.data.map Char.toNat) : a = b := by
  have hdata : a.data = b.data :=
    List.map_injective_iff.mpr (fun x y hxy => char_toNat_inj hxy) h
  cases a
  cases b
  exact congrArg String.mk hdata

lemma strLt_trans {a b c : String} (h1 : strLt a b = true) (h2 : strLt b c = true) :
    strLt a c = true := bytesLt_trans _ _ _ h1 h2

lemma strLt_cases (a b : String) : strLt a b = true ∨ a = b ∨ strLt b a = true := by
  rcases bytesLt_total (a.data.map Char.toNat) (b.data.map Char.toNat) with h | h | h
  · exact Or.inl h
  · exact Or.inr (Or.inl (strData_map_toNat_inj h))
  · exact Or.inr (Or.inr h)

lemma lookupH_insert_self (k v : String) : ∀ (m : Hmap),
    lookupH k (mapInsert k v m) = some v := by
  intro m
  induction m with
  | nil => simp [mapInsert, lookupH]
  | cons kv rest ih =>
    obtain ⟨k', v'⟩ := kv
    rw [mapInsert]
    by_cases h1 : strLt k k' = true
    · rw [if_pos h1, lookupH, if_pos rfl]
    · rw [if_neg h1]
      by_cases h2 : k = k'
      · rw [if_pos h2, lookupH, if_pos rfl]
      · rw [if_neg h2, lookupH, if_neg h2, ih]

lemma lookupH_insert_other {j k : String} (hne : j ≠ k) (v : String) :
    ∀ (m : Hmap), lookupH j (mapInsert k v m) = lookupH j m := by
  intro m
  induction m with
  | nil => simp [mapInsert, lookupH, hne]
  | cons kv rest ih =>
    obtain ⟨k', v'⟩ := kv
    rw [mapInsert]
    by_cases h1 : strLt k k' = true
    · rw [if_pos h1, lookupH, if_neg hne, lookupH]
    · rw [if_neg h1]
      by_cases h2 : k = k'
      · subst h2
        rw [if_pos rfl, lookupH, if_neg hne, lookupH, if_neg hne]
      · rw [if_neg h2, lookupH, lookupH]
        by_cases h3 : j = k'
        · rw [if_pos h3, if_pos h3]
        · rw [if_neg h3, if_neg h3, ih]

lemma mem_mapInsert {k v : String} : ∀ {m : Hmap} {x : String × String},
    x ∈ mapInsert k v m → x = (k, v) ∨ x ∈ m := by
  intro m
  induction m with
  | nil =>
    intro x hx
    rw [mapInsert] at hx
    simp at hx
    exact Or.inl hx
  | cons kv rest ih =>
    intro x hx
    obtain ⟨k', v'⟩ := kv
    rw [mapInsert] at hx
    by_cases h1 : strLt k k' = true
    · rw [if_pos h1] at hx
      rcases List.mem_cons.mp hx with rfl | hx
      · exact Or.inl rfl
      · exact Or.inr hx
    · rw [if_neg h1] at hx
      by_cases h2 : k = k'
      · rw [if_pos h2] at hx
        rcases List.mem_cons.mp hx with rfl | hx
        · exact Or.inl rfl
        · exact Or.inr (List.mem_cons.mpr (Or.inr hx))
      · rw [if_neg h2] at hx
        rcases List.mem_cons.mp hx with rfl | hx
        · exact Or.inr (List.mem_cons.mpr (Or.inl rfl))
        · rcases ih hx with rfl | hx
          · exact Or.inl rfl
          · exact Or.inr (List.mem_cons.mpr (Or.inr hx))

lemma sortedKeys_insert (k v : String) : ∀ (m : Hmap), SortedKeys m →
    SortedKeys (mapInsert k v m) := by
  intro m
  induction m with
  | nil =>
    intro _
    rw [mapInsert, SortedKeys]
    simp
  | cons kv rest ih =>
    intro hs
    obtain ⟨k', v'⟩ := kv
    rw [SortedKeys, List.pairwise_cons] at hs
    obtain ⟨hhead, htail⟩ := hs
    rw [mapInsert]
    by_cases h1 : strLt k k' = true
    · rw [if_pos h1, SortedKeys, List.pairwise_cons]
      refine ⟨?_, ?_⟩
      · intro b hb
        rcases List.mem_cons.mp hb with rfl | hb
        · exact h1
        · exact strLt_trans h1 (hhead b hb)
      · rw [List.pairwise_cons]
        exact ⟨hhead, htail⟩
    · rw [if_neg h1]
      by_cases h2 : k = k'
      · rw [if_pos h2, SortedKeys, List.pairwise_cons]
        subst h2
        exact ⟨hhead, htail⟩
      · rw [if_neg h2]
        have h3 : strLt k' k = true := by
          rcases strLt_cases k k' with h | h | h
          · exact absurd h h1
          · exact absurd h h2
          · exact h
        rw [SortedKeys, List.pairwise_cons]
        refine ⟨?_, ih htail⟩
        intro b hb
        rcases mem_mapInsert hb with rfl | hb
        · exact h3
        · exact hhead b hb

lemma sortedKeys_merged (creds : AwsCredentials) (headers : Hmap)
    (host ts ph : String) (hs : SortedKeys headers) :
    SortedKeys (mergedHeaders creds headers host ts ph) := by
  cases htok : creds.session_token with
  | none =>
    simp only [mergedHeaders, htok]
    exact sortedKeys_insert _ _ _ (sortedKeys_insert _ _ _ (sortedKeys_insert _ _ _ hs))
  | some token =>
    simp only [mergedHeaders, htok]
    exact sortedKeys_insert _ _ _ (sortedKeys_insert _ _ _
      (sortedKeys_insert _ _ _ (sortedKeys_insert _ _ _ hs)))

/-- C1 counterexample: header names are compared case-SENSITIVELY (`BTreeMap` byte
order of the original names) and lowercased only at rendering, so with caller
headers `B`, `Host`, `a` the canonical headers block lists lowercase names out of
order and with the logical key `host` duplicated rather than coalesced. -/
theorem c1_counterexample_header_order :
    (mergedHeaders ⟨"AKID", "SECRET", none, "us-east-1"⟩
        [("B", "1"), ("Host", "x"), ("a", "2")] "example.com" "ts" "ph").map
        (fun kv => toLowerStr kv.1)
      = ["b", "host", "a", "host", "x-amz-content-sha256", "x-amz-date"] ∧
    ¬ List.Pairwise (fun a b : String => strLt a b = true)
        ["b", "host", "a", "host", "x-amz-content-sha256", "x-amz-date"] ∧
    ¬ List.Nodup ["b", "host", "a", "host", "x-amz-content-sha256", "x-amz-date"] ∧
    canonicalHeadersBlock (mergedHeaders ⟨"AKID", "SECRET", none, "us-east-1"⟩
        [("B", "1"), ("Host", "x"), ("a", "2")] "example.com" "ts" "ph")
      = "b:1\nhost:x\na:2\nhost:example.com\nx-amz-content-sha256:ph\nx-amz-date:ts\n" := by
  refine ⟨by decide, by decide, by decide, by decide⟩

lemma toLowerStr_fixed_of_asciiLower {s : String} (h : asciiLowerKey s = true) :
    toLowerStr s = s := by
  rw [asciiLowerKey, List.all_eq_true] at h
  rw [toLowerStr]
  have hmap : s.data.map lowerChar = s.data.map id := by
    apply List.map_congr_left
    intro c hc
    have hcc := h c hc
    rw [Bool.and_eq_true] at hcc
    have h2 := hcc.2
    show lowerChar c = c
    rw [lowerChar, if_neg]
    intro hrange
    have hb : (65 ≤ c.toNat && c.toNat ≤ 90) = true := by
      rw [Bool.and_eq_true]
      exact ⟨decide_eq_true hrange.1, decide_eq_true hrange.2⟩
    rw [hb] at h2
    simp at h2
  rw [hmap, List.map_id]

/-- C1 (amended): the merged header set keeps the `BTreeMap` invariant — entries
appear in strictly ascending byte order of the ORIGINAL header name, with only
exact-duplicate keys coalesced by insertion; lowercasing is applied per entry at
rendering only. When every merged key is ASCII with no uppercase letter — i.e.
a key that Rust's `to_lowercase` leaves unchanged, the regime in which this
embedding models `to_lowercase` exactly — the canonical headers block's rendered
names are strictly ascending (and hence duplicate-free). -/
theorem c1_canonical_headers_amended (creds : AwsCredentials) (headers : Hmap)
    (host timestamp payload_hash : String) (hs : SortedKeys headers) :
    SortedKeys (mergedHeaders creds headers host timestamp payload_hash) ∧
    ((∀ kv ∈ mergedHeaders creds headers host timestamp payload_hash,
        asciiLowerKey kv.1 = true) →
      List.Pairwise (fun a b : String => strLt a b = true)
        ((mergedHeaders creds headers host timestamp payload_hash).map
          (fun kv => toLowerStr kv.1))) := by
  have hm := sortedKeys_merged creds headers host timestamp payload_hash hs
  refine ⟨hm, fun hfix => ?_⟩
  have hmap : (mergedHeaders creds headers host timestamp payload_hash).map
      (fun kv => toLowerStr kv.1) =
      (mergedHeaders creds headers host timestamp payload_hash).map (fun kv => kv.1) :=
    List.map_congr_left (fun kv hkv => toLowerStr_fixed_of_asciiLower (hfix kv hkv))
  rw [hmap, List.pairwise_map]
  exact hm

/-- C1 witness: the amended theorem at a concrete sorted header set whose keys are
all ASCII and lowercase. -/
theorem c1_canonical_headers_witness :
    SortedKeys (mergedHeaders ⟨"AKID", "SECRET", none, "us-east-1"⟩
      [("a", "1")] "example.com" "ts" "ph") ∧
    List.Pairwise (fun a b : String => strLt a b = true)
      ((mergedHeaders ⟨"AKID", "SECRET", none, "us-east-1"⟩
        [("a", "1")] "example.com" "ts" "ph").map (fun kv => toLowerStr kv.1)) :=
  ⟨(c1_canonical_headers_amended ⟨"AKID", "SECRET", none, "us-east-1"⟩
      [("a", "1")] "example.com" "ts" "ph" (by decide)).1,
   (c1_canonical_headers_amended ⟨"AKID", "SECRET", none, "us-east-1"⟩
      [("a", "1")] "example.com" "ts" "ph" (by decide)).2 (by decide)⟩

lemma signRequestBody_eq (creds : AwsCredentials) (service method : String)
    (p : ParsedUrl) (headers : Hmap) (payload : List Nat) (now : Nat) :
    ∃ auth : String,
      signRequestBody creds service method p headers payload now =
        mapInsert "authorization" auth
          (mergedHeaders creds headers p.host (format_timestamp now)
            (sha256_hex payload)) :=
  ⟨_, rfl⟩

lemma lookupH_merged (creds : AwsCredentials) (headers : Hmap) (host ts ph : String) :
    lookupH "host" (mergedHeaders creds headers host ts ph) = some host ∧
    lookupH "x-amz-date" (mergedHeaders creds headers host ts ph) = some ts ∧
    (∀ token, creds.session_token = some token →
      lookupH "x-amz-security-token" (mergedHeaders creds headers host ts ph)
        = some token) ∧
    (creds.session_token = none →
      lookupH "x-amz-security-token" (mergedHeaders creds headers host ts ph)
        = lookupH "x-amz-security-token" headers) := by
  cases htok : creds.session_token with
  | none =>
    simp only [mergedHeaders, htok]
    refine ⟨?_, ?_, ?_, ?_⟩
    · rw [lookupH_insert_other (by decide), lookupH_insert_other (by decide),
        lookupH_insert_self]
    · rw [lookupH_insert_other (by decide), lookupH_insert_self]
    · intro token htk
      exact absurd htk (by simp)
    · intro _
      rw [lookupH_insert_other (by decide), lookupH_insert_other (by decide),
        lookupH_insert_other (by decide)]
  | some token =>
    simp only [mergedHeaders, htok]
    refine ⟨?_, ?_, ?_, ?_⟩
    · rw [lookupH_insert_other (by decide), lookupH_insert_other (by decide),
        lookupH_insert_other (by decide), lookupH_insert_self]
    · rw [lookupH_insert_other (by decide), lookupH_insert_other (by decide),
        lookupH_insert_self]
    · intro token2 htk2
      have heq : token = token2 := by
        injection htk2
      subst heq
      rw [lookupH_insert_other (by decide), lookupH_insert_self]
    · intro hnone
      exact absurd hnone (by simp)

/-- C2 counterexample: a caller-supplied `Host` (uppercase) is NOT ignored — it
survives in the returned header set alongside the signer's lowercase `host` —
and a caller-supplied `x-amz-security-token` appears in the result even though the
credentials carry no session token, refuting the "of any casing" overwrite and the
"if and only if" characterization. -/
theorem c2_counterexample_caller_host_token :
    (⟨"AKID", "SECRET", none, "us-east-1"⟩ : AwsCredentials).session_token = none ∧
    lookupH "Host" (getOkHeaders (sign_request (Except.ok 0)
        ⟨"AKID", "SECRET", none, "us-east-1"⟩ "bedrock" "POST" "https://example.com/x"
        [("Host", "evil"), ("x-amz-security-token", "tok")] [])) = some "evil" ∧
    lookupH "x-amz-security-token" (getOkHeaders (sign_request (Except.ok 0)
        ⟨"AKID", "SECRET", none, "us-east-1"⟩ "bedrock" "POST" "https://example.com/x"
        [("Host", "evil"), ("x-amz-security-token", "tok")] [])) = some "tok" := by
  have hok : getOkHeaders (sign_request (Except.ok 0)
      ⟨"AKID", "SECRET", none, "us-east-1"⟩ "bedrock" "POST" "https://example.com/x"
      [("Host", "evil"), ("x-amz-security-token", "tok")] [])
      = signRequestBody ⟨"AKID", "SECRET", none, "us-east-1"⟩ "bedrock" "POST"
        (parseUrl "https://example.com/x")
        [("Host", "evil"), ("x-amz-security-token", "tok")] [] 0 := rfl
  obtain ⟨auth, hbody⟩ := signRequestBody_eq ⟨"AKID", "SECRET", none, "us-east-1"⟩
    "bedrock" "POST" (parseUrl "https://example.com/x")
    [("Host", "evil"), ("x-amz-security-token", "tok")] [] 0
  have hmerged : mergedHeaders ⟨"AKID", "SECRET", none, "us-east-1"⟩
      [("Host", "evil"), ("x-amz-security-token", "tok")]
      (parseUrl "https://example.com/x").host (format_timestamp 0) (sha256_hex [])
      = mapInsert "x-amz-content-sha256" (sha256_hex [])
          (mapInsert "x-amz-date" (format_timestamp 0)
            (mapInsert "host" (parseUrl "https://example.com/x").host
              [("Host", "evil"), ("x-amz-security-token", "tok")])) := rfl
  refine ⟨rfl, ?_, ?_⟩
  · rw [hok, hbody, hmerged, lookupH_insert_other (by decide),
      lookupH_insert_other (by decide), lookupH_insert_other (by decide),
      lookupH_insert_other (by decide)]
    decide
  · rw [hok, hbody, hmerged, lookupH_insert_other (by decide),
      lookupH_insert_other (by decide), lookupH_insert_other (by decide),
      lookupH_insert_other (by decide)]
    decide

/-- C2 (amended): the returned header set always maps `host` to the parsed URL's
host and `x-amz-date` to the formatted timestamp (overwriting caller entries under
those exact lowercase keys); `x-amz-security-token` maps to the session token
whenever the credentials carry one, and when they do not, its entry is exactly
whatever the caller supplied under that key (none, by default). Differently-cased
caller keys such as `Host` are separate `BTreeMap` keys and are not touched. -/
theorem c2_required_headers_amended :
    ∀ (creds : AwsCredentials) (service method url : String) (headers : Hmap)
      (payload : List Nat) (now : Nat),
      lookupH "host" (getOkHeaders
          (sign_request (Except.ok now) creds service method url headers payload))
        = some (parseUrl url).host ∧
      lookupH "x-amz-date" (getOkHeaders
          (sign_request (Except.ok now) creds service method url headers payload))
        = some (format_timestamp now) ∧
      (∀ token, creds.session_token = some token →
        lookupH "x-amz-security-token" (getOkHeaders
            (sign_request (Except.ok now) creds service method url headers payload))
          = some token) ∧
      (creds.session_token = none →
        lookupH "x-amz-security-token" (getOkHeaders
            (sign_request (Except.ok now) creds service method url headers payload))
          = lookupH "x-amz-security-token" headers) := by
  intro creds service method url headers payload now
  have hok : getOkHeaders
      (sign_request (Except.ok now) creds service method url headers payload)
      = signRequestBody creds service method (parseUrl url) headers payload now := rfl
  obtain ⟨auth, hbody⟩ :=
    signRequestBody_eq creds service method (parseUrl url) headers payload now
  have hm := lookupH_merged creds headers (parseUrl url).host (format_timestamp now)
    (sha256_hex payload)
  refine ⟨?_, ?_, ?_, ?_⟩
  · rw [hok, hbody, lookupH_insert_other (by decide)]
    exact hm.1
  · rw [hok, hbody, lookupH_insert_other (by decide)]
    exact hm.2.1
  · intro token htok
    rw [hok, hbody, lookupH_insert_other (by decide)]
    exact hm.2.2.1 token htok
  · intro hnone
    rw [hok, hbody, lookupH_insert_other (by decide)]
    exact hm.2.2.2 hnone

/-- C2 witness: the session-token conjunct applied at concrete credentials that
carry a token. -/
theorem c2_required_headers_witness :
    lookupH "x-amz-security-token" (getOkHeaders (sign_request (Except.ok 0)
        ⟨"AKID", "SECRET", some "tok", "us-east-1"⟩ "bedrock" "POST"
        "https://example.com/x" [] [])) = some "tok" :=
  (c2_required_headers_amended ⟨"AKID", "SECRET", some "tok", "us-east-1"⟩
    "bedrock" "POST" "https://example.com/x" [] [] 0).2.2.1 "tok" rfl

/-- C8: `sign_request` fails exactly when the clock reading does — the clock error
is mapped to the typed `Error::Internal("System time error: …")` and returned
immediately (no retry, no header map); for a successful clock reading the function
returns `Ok` with the signed header map. -/
theorem c8_clock_error_exactly :
    ∀ (clock : Except String Nat) (creds : AwsCredentials) (service method url : String)
      (headers : Hmap) (payload : List Nat),
      ((∃ err, sign_request clock creds service method url headers payload
          = Except.error err) ↔ (∃ msg, clock = Except.error msg)) ∧
      (∀ msg, clock = Except.error msg →
        sign_request clock creds service method url headers payload
          = Except.error (.Internal ("System time error: " ++ msg))) ∧
      (∀ now, clock = Except.ok now →
        sign_request clock creds service method url headers payload
          = Except.ok (signRequestBody creds service method (parseUrl url)
              headers payload now)) := by
  intro clock creds service method url headers payload
  cases clock with
  | error e =>
    refine ⟨⟨fun _ => ⟨e, rfl⟩,
      fun _ => ⟨.Internal ("System time error: " ++ e), rfl⟩⟩, ?_, ?_⟩
    · intro msg hmsg
      injection hmsg with h
      subst h
      rfl
    · intro now hnow
      exact absurd hnow (by simp)
  | ok now =>
    refine ⟨⟨?_, ?_⟩, ?_, ?_⟩
    · rintro ⟨err, herr⟩
      exact absurd herr (by simp [sign_request, parse_url])
    · rintro ⟨msg, hmsg⟩
      exact absurd hmsg (by simp)
    · intro msg hmsg
      exact absurd hmsg (by simp)
    · intro now2 hnow
      injection hnow with h
      subst h
      rfl

/-- C8 witness: the error conjunct at a concrete failed clock reading, and the
success conjunct at a concrete good one. -/
theorem c8_clock_error_witness :
    sign_request (Except.error "second time provided was later than self")
        ⟨"AKID", "SECRET", none, "us-east-1"⟩ "bedrock" "POST" "https://h/x" [] []
      = Except.error (.Internal
          ("System time error: " ++ "second time provided was later than self")) ∧
    sign_request (Except.ok 0) ⟨"AKID", "SECRET", none, "us-east-1"⟩ "bedrock" "POST"
        "https://h/x" [] []
      = Except.ok (signRequestBody ⟨"AKID", "SECRET", none, "us-east-1"⟩ "bedrock"
          "POST" (parseUrl "https://h/x") [] [] 0) :=
  ⟨(c8_clock_error_exactly (Except.error "second time provided was later than self")
      ⟨"AKID", "SECRET", none, "us-east-1"⟩ "bedrock" "POST" "https://h/x" [] []).2.1
      "second time provided was later than self" rfl,
   (c8_clock_error_exactly (Except.ok 0) ⟨"AKID", "SECRET", none, "us-east-1"⟩
      "bedrock" "POST" "https://h/x" [] []).2.2 0 rfl⟩

/-- C4 counterexample: `AwsCredentials` derives the default `Debug`, whose output
contains the secret access key verbatim. -/
theorem c4_counterexample_credentials_debug :
    strContains
      (awsCredentialsDebug ⟨"AKIDEXAMPLE", "wJalrXUtnFEMI", none, "us-east-1"⟩)
      "wJalrXUtnFEMI" = true := by
  decide

/-- C4 (amended): the redaction invariant holds for `AuthData` — its `Debug`
output is a fixed constant for each constructor, independent of the held secret —
but not for `AwsCredentials`, whose derived `Debug` includes `secret_access_key`
(see the counterexample). -/
theorem c4_auth_data_redaction :
    (∀ s : String, authDataDebug (.FromEnv s) = "AuthData::FromEnv(REDACTED)") ∧
    (∀ s : String, authDataDebug (.Key s) = "AuthData::Single(REDACTED)") ∧
    (∀ s : String, authDataDebug (.BearerToken s) = "AuthData::BearerToken(REDACTED)") ∧
    (∀ m, authDataDebug (.MultiKeys m) = "AuthData::Multi(REDACTED)") ∧
    (∀ u h, authDataDebug (.RequestOverride u h)
      = "AuthData::RequestOverride \x7b url: REDACTED, headers: REDACTED \x7d") :=
  ⟨fun _ => rfl, fun _ => rfl, fun _ => rfl, fun _ => rfl, fun _ _ => rfl⟩

/-- C10: `single_key_value` returns the empty string for `RequestOverride`, the
token for `BearerToken`, the key for `Key`, and the environment value for a set
`FromEnv`; it errs exactly for `FromEnv` with the variable unset
(`ApiKeyEnvNotFound`) and for `MultiKeys` (`ResolverAuthDataNotSingleValue`,
regardless of the map's contents). -/
theorem c10_single_key_value_cases :
    ∀ (env : String → Option String),
      (∀ u h, single_key_value env (.RequestOverride u h) = .ok "") ∧
      (∀ v, single_key_value env (.BearerToken v) = .ok v) ∧
      (∀ v, single_key_value env (.Key v) = .ok v) ∧
      (∀ n v, env n = some v → single_key_value env (.FromEnv n) = .ok v) ∧
      (∀ n, env n = none →
        single_key_value env (.FromEnv n) = .error (.ApiKeyEnvNotFound n)) ∧
      (∀ m, single_key_value env (.MultiKeys m)
        = .error .ResolverAuthDataNotSingleValue) ∧
      (∀ a : AuthData, (∃ e, single_key_value env a = .error e) ↔
        ((∃ n, a = .FromEnv n ∧ env n = none) ∨ (∃ m, a = .MultiKeys m))) := by
  intro env
  refine ⟨fun u h => rfl, fun v => rfl, fun v => rfl, fun n v hv => ?_,
    fun n hn => ?_, fun m => rfl, fun a => ?_⟩
  · simp [single_key_value, hv]
  · simp [single_key_value, hn]
  · cases a with
    | FromEnv n =>
      cases hv : env n with
      | none => simp [single_key_value, hv]
      | some v => simp [single_key_value, hv]
    | Key v => simp [single_key_value]
    | BearerToken v => simp [single_key_value]
    | RequestOverride u h => simp [single_key_value]
    | MultiKeys m => simp [single_key_value]

/-- C10 witness: the `FromEnv` conjuncts at a concrete environment. -/
theorem c10_single_key_value_witness :
    single_key_value (fun n => if n = "MY_KEY" then some "k-123" else none)
        (.FromEnv "MY_KEY") = .ok "k-123" ∧
    single_key_value (fun n => if n = "MY_KEY" then some "k-123" else none)
        (.FromEnv "OTHER") = .error (.ApiKeyEnvNotFound "OTHER") :=
  ⟨(c10_single_key_value_cases _).2.2.2.1 "MY_KEY" "k-123" (by decide),
   (c10_single_key_value_cases _).2.2.2.2.1 "OTHER" (by decide)⟩

end AwsAuth
